import Mathlib

/-!
Shallow embedding of the unique-factory header
(unique-factory/unique-factory.hpp): the class
`UniqueFactory<Key, Value, KeepAlive>` with its nested `Deleter`, the
retention policies `KeepNothingAlive` and `KeepSetAlive<Value, history>`,
`UniqueFactory::get` and the destructor.

Modelling choices, all read off the source:
* A cached value is identified by the order of its allocation (`Nat` id);
  `create()` returning a fresh object is modelled by allocating the next id,
  so two calls to the constructor always yield distinct ids
  (distinct instances).
* `objs` stores, per allocated id, the state that the C++ runtime keeps for
  the object: the `Deleter`'s copy of the key, the object's strong reference
  count, the `Deleter`'s back-pointer (`attached`, null when orphaned) and
  whether the storage is still alive.  `cache` is the
  `unordered_map<Key, weak_ptr<Value>>` as an association list with at most
  one entry per key; a `weak_ptr` is just the id, and `lock()` succeeds
  exactly while the object is alive.
* `retained` is `KeepSetAlive::workingSet`: a duplicate-free list of the
  shared pointers it holds (`none` is a null `shared_ptr`, which the code
  can insert when `lock()` failed).  Every listed pointer contributes one
  strong reference.
* Dropping a strong reference (`dropStrong`) decrements the count and, on
  reaching zero, runs `Deleter::operator()`: if the back-pointer is set it
  erases `cache[key]`, then releases the storage.  This matches the source,
  which takes no lock in the deleter.
* Each operation also returns the list of primitive events it performs, in
  source order; lock events are emitted exactly where the source constructs
  a `lock_guard`.  `get` emits them, the deleter and the destructor do not,
  again following the source.
-/

namespace UniqueFactory

/-- State kept per created value: the key copied into its `Deleter`, the
strong reference count, whether the `Deleter` still points back at the
factory, and whether the storage has been released. -/
structure Obj (K : Type) where
  key : K
  strong : Nat
  attached : Bool
  alive : Bool
deriving DecidableEq, Repr

/-- The `KeepAlive` template argument: `KeepNothingAlive` or
`KeepSetAlive<Value, history>`. -/
inductive Policy where
  | keepNothing : Policy
  | keepSet (history : Nat) : Policy
deriving DecidableEq, Repr

/-- Primitive effects, recorded in source order by each operation. -/
inductive Event (K : Type) where
  | lockAcquire : Event K
  | lockRelease : Event K
  | createCall : Event K
  | cacheInsert (k : K) (i : Nat) : Event K
  | cacheErase (k : K) : Event K
  | freeValue (i : Nat) : Event K
  | retainClear : Event K
  | retainInsert : Event K
  | orphanEvt (i : Nat) : Event K
deriving DecidableEq, Repr

/-- The whole factory state: the cache map, the per-object bookkeeping
(indexed by id), the retention policy's working set, and the policy. -/
structure St (K : Type) where
  cache : List (K × Nat)
  objs : List (Obj K)
  retained : List (Option Nat)
  policy : Policy
deriving DecidableEq, Repr

variable {K : Type} [DecidableEq K]
variable {α : Type}

/-- Index lookup in the object table. -/
def objAt : List α → Nat → Option α
  | [], _ => none
  | o :: _, 0 => some o
  | _ :: rest, n + 1 => objAt rest n

/-- Replace the element at an index (no-op out of range). -/
def setAt : List α → Nat → α → List α
  | [], _, _ => []
  | _ :: rest, 0, a => a :: rest
  | o :: rest, n + 1, a => o :: setAt rest n a

/-- Apply `f` to the object at index `i` (no-op when the index is absent). -/
def modifyObj (l : List (Obj K)) (i : Nat) (f : Obj K → Obj K) : List (Obj K) :=
  match objAt l i with
  | some o => setAt l i (f o)
  | none => l

/-- Lookup in the `unordered_map` (`cache.find(key)`). -/
def lookup : List (K × Nat) → K → Option Nat
  | [], _ => none
  | p :: rest, k => if p.1 = k then some p.2 else lookup rest k

/-- Erase by key (`cache.erase(key)`). -/
def mapErase : List (K × Nat) → K → List (K × Nat)
  | [], _ => []
  | p :: rest, k => if p.1 = k then mapErase rest k else p :: mapErase rest k

/-- Insert-or-assign (`cache[key] = ret`). -/
def mapInsert : List (K × Nat) → K → Nat → List (K × Nat)
  | [], k, v => [(k, v)]
  | p :: rest, k, v => if p.1 = k then (k, v) :: rest else p :: mapInsert rest k v

/-- The body of `Deleter::operator()(Value*)`: if the back-pointer is not
null, erase the entry for the stored key from the cache, then release the
value's storage.  The source takes no lock here, so no lock events are
emitted. -/
def deleterRun (s : St K) (i : Nat) : St K × List (Event K) :=
  match objAt s.objs i with
  | none => (s, [])
  | some o =>
    if o.attached then
      ({ s with cache := mapErase s.cache o.key,
                objs := modifyObj s.objs i (fun a => { a with alive := false }) },
        [Event.cacheErase o.key, Event.freeValue i])
    else
      ({ s with objs := modifyObj s.objs i (fun a => { a with alive := false }) },
        [Event.freeValue i])

/-- Destroying one strong reference to object `i`: decrement the count and,
when it reaches zero, invoke the deleter. -/
def dropStrong (s : St K) (i : Nat) : St K × List (Event K) :=
  match objAt s.objs i with
  | none => (s, [])
  | some o =>
    match o.strong with
    | 0 => (s, [])
    | 1 =>
      deleterRun
        { s with objs := modifyObj s.objs i (fun a => { a with strong := a.strong - 1 }) } i
    | _ + 2 =>
      ({ s with objs := modifyObj s.objs i (fun a => { a with strong := a.strong - 1 }) }, [])

/-- Destroy a possibly-null shared pointer (`none` is a null pointer, whose
destruction does nothing). -/
def dropPtr (s : St K) (v : Option Nat) : St K × List (Event K) :=
  match v with
  | none => (s, [])
  | some i => dropStrong s i

/-- Destroy every shared pointer in a list, left to right. -/
def dropAll (s : St K) : List (Option Nat) → St K × List (Event K)
  | [] => (s, [])
  | v :: rest =>
    let d := dropPtr s v
    let r := dropAll d.1 rest
    (r.1, d.2 ++ r.2)

/-- `KeepSetAlive::clear()`: `workingSet.clear()` destroys every held
shared pointer (possibly triggering deleters) and empties the set. -/
def clearRet (s : St K) : St K × List (Event K) :=
  let d := dropAll s s.retained
  ({ d.1 with retained := [] }, d.2 ++ [Event.retainClear])

/-- `KeepAlive::clear()` as dispatched by the policy template argument:
`KeepNothingAlive::clear()` is a no-op. -/
def clearPolicy (s : St K) : St K × List (Event K) :=
  match s.policy with
  | Policy.keepNothing => (s, [])
  | Policy.keepSet _ => clearRet s

/-- `KeepSetAlive::insert(value)`: first clear the working set when
`workingSet.size() >= history`, then insert the pointer (a set insert:
nothing happens when it is already a member; otherwise the set now holds
one more strong reference to the pointee). -/
def ksaInsert (s : St K) (history : Nat) (v : Option Nat) : St K × List (Event K) :=
  let c := if history ≤ s.retained.length then clearRet s else (s, ([] : List (Event K)))
  if v ∈ c.1.retained then c
  else
    match v with
    | some i =>
      ({ c.1 with objs := modifyObj c.1.objs i (fun a => { a with strong := a.strong + 1 }),
                  retained := v :: c.1.retained },
        c.2 ++ [Event.retainInsert])
    | none =>
      ({ c.1 with retained := v :: c.1.retained }, c.2 ++ [Event.retainInsert])

/-- `KeepAlive::insert(ret)` as dispatched by the policy template argument:
`KeepNothingAlive::insert` is a no-op. -/
def retInsert (s : St K) (v : Option Nat) : St K × List (Event K) :=
  match s.policy with
  | Policy.keepNothing => (s, [])
  | Policy.keepSet history => ksaInsert s history v

/-- `weak_ptr::lock()`: a strong pointer to the object while it is alive,
null otherwise. -/
def lockWeak (objs : List (Obj K)) (i : Nat) : Option Nat :=
  match objAt objs i with
  | some o => if o.alive then some i else none
  | none => none

/-- Result of `UniqueFactory::get`: `result = none` means the constructor
threw and the exception propagated; `result = some v` means `get` returned
the shared pointer `v` (`v = none` is a null pointer).  `created` records
whether a value was constructed and inserted.  `trace` lists the primitive
effects in source order. -/
structure GetResult (K : Type) where
  result : Option (Option Nat)
  st : St K
  created : Bool
  trace : List (Event K)
deriving DecidableEq, Repr

/-- The hit branch of `get`: `ret = cached->second.lock()` (a strong
reference while the value is alive, null after expiry), then
`KeepAlive::insert(ret)`, then return `ret`. -/
def getHit (s : St K) (i : Nat) : GetResult K :=
  match lockWeak s.objs i with
  | some _ =>
    let s1 : St K :=
      { s with objs := modifyObj s.objs i (fun a => { a with strong := a.strong + 1 }) }
    let ri := retInsert s1 (some i)
    { result := some (some i), st := ri.1, created := false,
      trace := Event.lockAcquire :: (ri.2 ++ [Event.lockRelease]) }
  | none =>
    let ri := retInsert s none
    { result := some none, st := ri.1, created := false,
      trace := Event.lockAcquire :: (ri.2 ++ [Event.lockRelease]) }

/-- The miss branch of `get`: invoke `create()`; when it throws (`fail`),
unwinding releases the lock with the state untouched; otherwise wrap the
fresh value with `Deleter(this, key)`, store `cache[key] = ret`, run
`KeepAlive::insert(ret)` and return `ret`. -/
def getMiss (s : St K) (k : K) (fail : Bool) : GetResult K :=
  if fail then
    { result := none, st := s, created := false,
      trace := [Event.lockAcquire, Event.createCall, Event.lockRelease] }
  else
    let i := s.objs.length
    let s1 : St K :=
      { s with objs := s.objs ++ [⟨k, 1, true, true⟩], cache := mapInsert s.cache k i }
    let ri := retInsert s1 (some i)
    { result := some (some i), st := ri.1, created := true,
      trace := Event.lockAcquire :: Event.createCall :: Event.cacheInsert k i ::
        (ri.2 ++ [Event.lockRelease]) }

/-- `UniqueFactory::get(key, create)`.  Under the lock: look the key up and
dispatch to the hit or miss branch; `fail` models whether `create()` would
throw (it is only reached on a miss). -/
def get (s : St K) (k : K) (fail : Bool) : GetResult K :=
  match lookup s.cache k with
  | some i => getHit s i
  | none => getMiss s k fail

/-- The destructor's orphan loop: for every entry still in the cache, call
`orphan()` on its value's `Deleter`, severing the back-pointer. -/
def orphanAll (objs : List (Obj K)) : List (K × Nat) → List (Obj K) × List (Event K)
  | [] => (objs, [])
  | p :: rest =>
    let objs1 := modifyObj objs p.2 (fun a => { a with attached := false })
    let r := orphanAll objs1 rest
    (r.1, Event.orphanEvt p.2 :: r.2)

/-- Result of `~UniqueFactory`: the final per-object states, the entries
that were still in the cache after the retention policy was cleared, and
the trace. -/
structure DtorResult (K : Type) where
  objs : List (Obj K)
  remaining : List (K × Nat)
  trace : List (Event K)

/-- `~UniqueFactory()`: first `KeepAlive::clear()` (which may run deleters
and shrink the map), then orphan the deleter of every entry still in the
cache.  The source takes no lock here. -/
def destroyFactory (s : St K) : DtorResult K :=
  let c := clearPolicy s
  let oa := orphanAll c.1.objs c.1.cache
  { objs := oa.1, remaining := c.1.cache, trace := c.2 ++ oa.2 }

/-- Consistency of the cache map with the object table: keys are unique,
every entry points at a live attached object carrying that key, and every
live attached object has its entry in the map. -/
def CacheOk (cache : List (K × Nat)) (objs : List (Obj K)) : Prop :=
  ((cache.map Prod.fst).Nodup) ∧
  (∀ p ∈ cache, ∃ o, objAt objs p.2 = some o ∧ o.key = p.1 ∧
    o.alive = true ∧ o.attached = true) ∧
  (∀ i o, objAt objs i = some o → o.alive = true →
    o.attached = true ∧ (o.key, i) ∈ cache)

/-- An object is alive exactly while strong references to it exist. -/
def AliveOk (objs : List (Obj K)) : Prop :=
  ∀ i o, objAt objs i = some o → (o.alive = true ↔ 0 < o.strong)

/-- One cache entry points at a live attached object carrying its key. -/
def entryOkB (objs : List (Obj K)) (p : K × Nat) : Bool :=
  match objAt objs p.2 with
  | some o => decide (o.key = p.1) && o.alive && o.attached
  | none => false

/-- A live attached object has its entry in the cache. -/
def liveInB (cache : List (K × Nat)) (objs : List (Obj K)) (i : Nat) : Bool :=
  match objAt objs i with
  | some o => !o.alive || (o.attached && decide ((o.key, i) ∈ cache))
  | none => true

/-- An object is alive exactly while its strong count is positive. -/
def aliveOkB (objs : List (Obj K)) (i : Nat) : Bool :=
  match objAt objs i with
  | some o => o.alive == decide (0 < o.strong)
  | none => true

/-- A retained pointer is null or points at a live object. -/
def retLiveB (objs : List (Obj K)) (v : Option Nat) : Bool :=
  match v with
  | some m => (match objAt objs m with | some o => o.alive | none => false)
  | none => true

/-- Executable well-formedness check for a factory state; `wfB s = true`
holds for every state reachable from the empty factory. -/
def wfB (s : St K) : Bool :=
  decide ((s.cache.map Prod.fst).Nodup) &&
  s.cache.all (entryOkB s.objs) &&
  (List.range s.objs.length).all (liveInB s.cache s.objs) &&
  (List.range s.objs.length).all (aliveOkB s.objs) &&
  s.retained.all (retLiveB s.objs) &&
  decide s.retained.Nodup

/-- Deleters never change an object's key or its back-pointer. -/
def keyAtt (o : Obj K) : K × Bool := (o.key, o.attached)

/-- The state after `ret = cached->second.lock()` succeeded: the local
`ret` holds one more strong reference. -/
def bumpAt (s : St K) (i : Nat) : St K :=
  { s with objs := modifyObj s.objs i (fun a => { a with strong := a.strong + 1 }) }

/-- The state after a successful `create()` and `cache[key] = ret`: a fresh
object (one strong reference, held by `ret`) and its cache entry. -/
def insState (s : St K) (k : K) : St K :=
  { s with objs := s.objs ++ [⟨k, 1, true, true⟩],
           cache := mapInsert s.cache k s.objs.length }

/-! Concrete states used by the witnesses and the bounded-retention
scenario. -/

/-- Witness state: one live cached object (key 5, one strong reference). -/
def w1 : St Nat := ⟨[(5, 0)], [⟨5, 1, true, true⟩], [], Policy.keepNothing⟩

/-- The empty factory with the default retention policy. -/
def w2 : St Nat := ⟨[], [], [], Policy.keepNothing⟩

/-- A state with one orphaned (factory already destroyed) live object. -/
def w6 : St Nat := ⟨[], [⟨7, 1, false, true⟩], [], Policy.keepNothing⟩

/-- A state with a cache entry for key 4 whose value is already dead. -/
def w9 : St Nat := ⟨[(4, 0)], [⟨4, 0, true, false⟩], [], Policy.keepNothing⟩

/-- A `KeepSetAlive` factory whose working set is at capacity. -/
def w10 : St Nat := ⟨[], [], [some 1], Policy.keepSet 1⟩

/-- Scenario for bounded retention with history 1, following the spec: a
fresh `KeepSetAlive<Value, 1>` factory. -/
def s5a : GetResult Nat := get ⟨[], [], [], Policy.keepSet 1⟩ 0 false

/-- The external reference from the first `get(0, c0)` is dropped. -/
def s5b : St Nat × List (Event Nat) := dropStrong s5a.st 0

/-- Second call, `get(0, c1)`. -/
def s5c : GetResult Nat := get s5b.1 0 false

/-- Its external reference is dropped again. -/
def s5d : St Nat × List (Event Nat) := dropStrong s5c.st 0

/-- A different key: `get(1, c2)`. -/
def s5e : GetResult Nat := get s5d.1 1 false

/-- Its external reference is dropped. -/
def s5f : St Nat × List (Event Nat) := dropStrong s5e.st 1

/-- Finally `get(0, c3)`. -/
def s5g : GetResult Nat := get s5f.1 0 false

/-! Basic lemmas about the index and map helpers. -/

theorem objAt_lt {l : List α} {i : Nat} {o : α} (h : objAt l i = some o) : i < l.length := by
  induction l generalizing i with
  | nil => simp [objAt] at h
  | cons x rest ih =>
    cases i with
    | zero => simp
    | succ n =>
      simp only [objAt] at h
      have := ih h
      simp only [List.length_cons]
      omega

theorem objAt_ge {l : List α} {i : Nat} (h : l.length ≤ i) : objAt l i = none := by
  induction l generalizing i with
  | nil => simp [objAt]
  | cons x rest ih =>
    cases i with
    | zero => simp at h
    | succ n =>
      simp only [objAt]
      exact ih (by simpa using h)

theorem objAt_append_left {l l2 : List α} {i : Nat} {o : α} (h : objAt l i = some o) :
    objAt (l ++ l2) i = some o := by
  induction l generalizing i with
  | nil => simp [objAt] at h
  | cons x rest ih =>
    cases i with
    | zero => simpa [objAt] using h
    | succ n => simp only [objAt, List.cons_append] at h ⊢; exact ih h

theorem objAt_append_len {l : List α} {x : α} : objAt (l ++ [x]) l.length = some x := by
  induction l with
  | nil => rfl
  | cons y rest ih => simpa [objAt] using ih

theorem length_setAt {l : List α} {i : Nat} {a : α} : (setAt l i a).length = l.length := by
  induction l generalizing i with
  | nil => rfl
  | cons x rest ih =>
    cases i with
    | zero => rfl
    | succ n => simp [setAt, ih]

theorem objAt_setAt_self {l : List α} {i : Nat} {o a : α} (h : objAt l i = some o) :
    objAt (setAt l i a) i = some a := by
  induction l generalizing i with
  | nil => simp [objAt] at h
  | cons x rest ih =>
    cases i with
    | zero => rfl
    | succ n => simp only [objAt, setAt] at h ⊢; exact ih h

theorem objAt_setAt_ne {l : List α} {i j : Nat} {a : α} (h : ¬ i = j) :
    objAt (setAt l i a) j = objAt l j := by
  induction l generalizing i j with
  | nil => rfl
  | cons x rest ih =>
    cases i with
    | zero =>
      cases j with
      | zero => exact absurd rfl h
      | succ m => rfl
    | succ n =>
      cases j with
      | zero => rfl
      | succ m => simp only [setAt, objAt]; exact ih (by omega)

theorem setAt_setAt {l : List α} {i : Nat} {a b : α} : setAt (setAt l i a) i b = setAt l i b := by
  induction l generalizing i with
  | nil => rfl
  | cons x rest ih =>
    cases i with
    | zero => rfl
    | succ n => simp [setAt, ih]

theorem length_modifyObj {l : List (Obj K)} {i : Nat} {f : Obj K → Obj K} :
    (modifyObj l i f).length = l.length := by
  unfold modifyObj
  cases h : objAt l i with
  | none => rfl
  | some o => exact length_setAt

theorem modifyObj_at_self {l : List (Obj K)} {i : Nat} {o : Obj K} {f : Obj K → Obj K}
    (h : objAt l i = some o) : objAt (modifyObj l i f) i = some (f o) := by
  unfold modifyObj
  rw [h]
  exact objAt_setAt_self h

theorem modifyObj_at_ne {l : List (Obj K)} {i j : Nat} {f : Obj K → Obj K} (h : ¬ i = j) :
    objAt (modifyObj l i f) j = objAt l j := by
  unfold modifyObj
  cases hm : objAt l i with
  | none => rfl
  | some o => exact objAt_setAt_ne h

theorem modifyObj_none {l : List (Obj K)} {i : Nat} {f : Obj K → Obj K}
    (h : objAt l i = none) : modifyObj l i f = l := by
  unfold modifyObj
  rw [h]

theorem modifyObj_eq_setAt {l : List (Obj K)} {i : Nat} {o : Obj K} {f : Obj K → Obj K}
    (h : objAt l i = some o) : modifyObj l i f = setAt l i (f o) := by
  unfold modifyObj
  rw [h]

theorem modifyObj_modifyObj {l : List (Obj K)} {i : Nat} {f g : Obj K → Obj K} :
    modifyObj (modifyObj l i f) i g = modifyObj l i (fun a => g (f a)) := by
  cases h : objAt l i with
  | none => rw [modifyObj_none h, modifyObj_none h, modifyObj_none h]
  | some o =>
    have h1 : objAt (modifyObj l i f) i = some (f o) := modifyObj_at_self h
    rw [modifyObj_eq_setAt h1, modifyObj_eq_setAt h, modifyObj_eq_setAt h, setAt_setAt]

theorem lookup_mem {c : List (K × Nat)} {k : K} {i : Nat} (h : lookup c k = some i) :
    (k, i) ∈ c := by
  induction c with
  | nil => simp [lookup] at h
  | cons p rest ih =>
    simp only [lookup] at h
    by_cases hk : p.1 = k
    · rw [if_pos hk] at h
      have hp : p = (k, i) := by cases p; simp_all
      exact hp ▸ List.mem_cons_self _ _
    · rw [if_neg hk] at h
      exact List.mem_cons_of_mem _ (ih h)

theorem lookup_eq_of_mem {c : List (K × Nat)} {k : K} {i : Nat}
    (hn : (c.map Prod.fst).Nodup) (h : (k, i) ∈ c) : lookup c k = some i := by
  induction c with
  | nil => simp at h
  | cons p rest ih =>
    simp only [List.map_cons, List.nodup_cons] at hn
    rcases List.mem_cons.mp h with heq | hmem
    · subst heq
      simp [lookup]
    · have hk : ¬ p.1 = k := by
        intro hk
        exact hn.1 (hk ▸ List.mem_map_of_mem Prod.fst hmem)
      simp only [lookup, if_neg hk]
      exact ih hn.2 hmem

theorem lookup_none_iff {c : List (K × Nat)} {k : K} :
    lookup c k = none ↔ k ∉ c.map Prod.fst := by
  induction c with
  | nil => simp [lookup]
  | cons p rest ih =>
    simp only [lookup, List.map_cons, List.mem_cons]
    by_cases hk : p.1 = k
    · simp [hk]
    · simp [hk, ih, Ne.symm hk]

theorem mem_mapErase {c : List (K × Nat)} {k : K} {p : K × Nat} :
    p ∈ mapErase c k ↔ p ∈ c ∧ ¬ p.1 = k := by
  induction c with
  | nil => simp [mapErase]
  | cons q rest ih =>
    simp only [mapErase]
    by_cases hq : q.1 = k
    · rw [if_pos hq, ih]
      constructor
      · rintro ⟨hm, hk⟩; exact ⟨List.mem_cons_of_mem _ hm, hk⟩
      · rintro ⟨hm, hk⟩
        rcases List.mem_cons.mp hm with rfl | hm
        · exact absurd hq hk
        · exact ⟨hm, hk⟩
    · rw [if_neg hq]
      simp only [List.mem_cons, ih]
      constructor
      · rintro (rfl | ⟨hm, hk⟩)
        · exact ⟨Or.inl rfl, hq⟩
        · exact ⟨Or.inr hm, hk⟩
      · rintro ⟨rfl | hm, hk⟩
        · exact Or.inl rfl
        · exact Or.inr ⟨hm, hk⟩

theorem mapErase_sublist {c : List (K × Nat)} {k : K} : List.Sublist (mapErase c k) c := by
  induction c with
  | nil => simp [mapErase]
  | cons q rest ih =>
    simp only [mapErase]
    by_cases hq : q.1 = k
    · rw [if_pos hq]
      exact ih.cons q
    · rw [if_neg hq]
      exact ih.cons₂ q

theorem keysNodup_mapErase {c : List (K × Nat)} {k : K}
    (h : (c.map Prod.fst).Nodup) : ((mapErase c k).map Prod.fst).Nodup :=
  (mapErase_sublist.map Prod.fst).nodup h

theorem lookup_mapErase_self {c : List (K × Nat)} {k : K} : lookup (mapErase c k) k = none := by
  induction c with
  | nil => rfl
  | cons q rest ih =>
    simp only [mapErase]
    by_cases hq : q.1 = k
    · rwa [if_pos hq]
    · rw [if_neg hq]
      simpa [lookup, hq] using ih

theorem lookup_mapErase_ne {c : List (K × Nat)} {k k0 : K} (h : ¬ k0 = k) :
    lookup (mapErase c k) k0 = lookup c k0 := by
  induction c with
  | nil => rfl
  | cons q rest ih =>
    simp only [mapErase, lookup]
    by_cases hq : q.1 = k
    · rw [if_pos hq, if_neg (by rw [hq]; exact fun hc => h hc.symm), ih]
    · rw [if_neg hq]
      by_cases hq0 : q.1 = k0
      · simp [lookup, hq0]
      · simp [lookup, hq0, ih]

theorem mapInsert_of_none {c : List (K × Nat)} {k : K} {v : Nat}
    (h : lookup c k = none) : mapInsert c k v = c ++ [(k, v)] := by
  induction c with
  | nil => rfl
  | cons q rest ih =>
    simp only [lookup] at h
    by_cases hq : q.1 = k
    · rw [if_pos hq] at h; exact absurd h (by simp)
    · rw [if_neg hq] at h
      simp [mapInsert, hq, ih h]

/-! Case analysis of a strong-reference drop. -/

theorem deleterRun_spec {s : St K} {i : Nat} {o : Obj K} (h : objAt s.objs i = some o) :
    deleterRun s i =
      if o.attached then
        ({ s with cache := mapErase s.cache o.key,
                  objs := modifyObj s.objs i (fun a => { a with alive := false }) },
          [Event.cacheErase o.key, Event.freeValue i])
      else
        ({ s with objs := modifyObj s.objs i (fun a => { a with alive := false }) },
          [Event.freeValue i]) := by
  unfold deleterRun
  rw [h]

theorem dropStrong_of_some {s : St K} {i : Nat} {o : Obj K} (h : objAt s.objs i = some o) :
    dropStrong s i =
      match o.strong with
      | 0 => (s, [])
      | 1 =>
        deleterRun
          { s with objs := modifyObj s.objs i (fun a => { a with strong := a.strong - 1 }) } i
      | _ + 2 =>
        ({ s with objs := modifyObj s.objs i (fun a => { a with strong := a.strong - 1 }) },
          []) := by
  unfold dropStrong
  rw [h]

theorem dropStrong_spec (s : St K) (i : Nat) :
    ((dropStrong s i = (s, []) ∧ ∀ o, objAt s.objs i = some o → o.strong = 0))
    ∨ (∃ o, objAt s.objs i = some o ∧ 2 ≤ o.strong ∧
        dropStrong s i =
          ({ s with objs := modifyObj s.objs i (fun a => { a with strong := a.strong - 1 }) },
            []))
    ∨ (∃ o, objAt s.objs i = some o ∧ o.strong = 1 ∧ o.attached = true ∧
        dropStrong s i =
          ({ s with cache := mapErase s.cache o.key,
                    objs := modifyObj s.objs i
                      (fun a => { a with strong := a.strong - 1, alive := false }) },
            [Event.cacheErase o.key, Event.freeValue i]))
    ∨ (∃ o, objAt s.objs i = some o ∧ o.strong = 1 ∧ o.attached = false ∧
        dropStrong s i =
          ({ s with objs := modifyObj s.objs i
                      (fun a => { a with strong := a.strong - 1, alive := false }) },
            [Event.freeValue i])) := by
  obtain ⟨r, h⟩ : ∃ r, objAt s.objs i = r := ⟨_, rfl⟩
  cases r with
  | none =>
    left
    refine ⟨?_, ?_⟩
    · unfold dropStrong
      rw [h]
    · intro o ho
      rw [h] at ho
      cases ho
  | some o =>
    obtain ⟨m, hs⟩ : ∃ m, o.strong = m := ⟨_, rfl⟩
    match m, hs with
    | 0, hs =>
      left
      refine ⟨?_, ?_⟩
      · rw [dropStrong_of_some h, hs]
      · intro o' ho'
        rw [h] at ho'
        injection ho' with he
        rw [← he]
        exact hs
    | 1, hs =>
      have h1 : objAt (modifyObj s.objs i (fun a => { a with strong := a.strong - 1 })) i
          = some { o with strong := o.strong - 1 } := modifyObj_at_self h
      have hrun := deleterRun_spec (s :=
        { s with objs := modifyObj s.objs i (fun a => { a with strong := a.strong - 1 }) }) h1
      by_cases hatt : o.attached = true
      · right; right; left
        refine ⟨o, h, hs, hatt, ?_⟩
        rw [dropStrong_of_some h, hs, hrun]
        rw [if_pos hatt]
        rw [modifyObj_modifyObj]
      · right; right; right
        refine ⟨o, h, hs, by simpa using hatt, ?_⟩
        rw [dropStrong_of_some h, hs, hrun]
        rw [if_neg hatt]
        rw [modifyObj_modifyObj]
    | (m + 2), hs =>
      right; left
      refine ⟨o, h, by omega, ?_⟩
      rw [dropStrong_of_some h, hs]

/-! Effect lemmas for a single strong-reference drop. -/

theorem of_keyAtt_eq {l1 l2 : List (Obj K)} {j : Nat} {o2 : Obj K}
    (hj : (objAt l2 j).map keyAtt = (objAt l1 j).map keyAtt)
    (h2 : objAt l2 j = some o2) :
    ∃ o1, objAt l1 j = some o1 ∧ o1.key = o2.key ∧ o1.attached = o2.attached := by
  rw [h2] at hj
  cases hE : objAt l1 j with
  | none => rw [hE] at hj; cases hj
  | some o1 =>
    rw [hE] at hj
    injection hj with he
    refine ⟨o1, rfl, ?_, ?_⟩
    · exact congrArg Prod.fst he.symm
    · exact congrArg Prod.snd he.symm

theorem eq_of_mem_keysNodup {c : List (K × Nat)} (hN : (c.map Prod.fst).Nodup)
    {p q : K × Nat} (hp : p ∈ c) (hq : q ∈ c) (hfst : p.1 = q.1) : p = q := by
  have h1 : lookup c p.1 = some p.2 := by
    cases p
    exact lookup_eq_of_mem hN hp
  have h2 : lookup c q.1 = some q.2 := by
    cases q
    exact lookup_eq_of_mem hN hq
  rw [hfst, h2] at h1
  injection h1 with hsnd
  cases p
  cases q
  simp_all

theorem dropStrong_retained (s : St K) (i : Nat) :
    (dropStrong s i).1.retained = s.retained ∧ (dropStrong s i).1.policy = s.policy := by
  rcases dropStrong_spec s i with ⟨hEq, _⟩ | ⟨o, h, h2, hEq⟩ | ⟨o, h, h1, hatt, hEq⟩ |
    ⟨o, h, h1, hatt, hEq⟩ <;> rw [hEq] <;> exact ⟨rfl, rfl⟩

theorem dropStrong_length (s : St K) (i : Nat) :
    (dropStrong s i).1.objs.length = s.objs.length := by
  rcases dropStrong_spec s i with ⟨hEq, _⟩ | ⟨o, h, h2, hEq⟩ | ⟨o, h, h1, hatt, hEq⟩ |
    ⟨o, h, h1, hatt, hEq⟩ <;> rw [hEq]
  all_goals exact length_modifyObj

theorem dropStrong_keyAtt (s : St K) (i j : Nat) :
    (objAt (dropStrong s i).1.objs j).map keyAtt = (objAt s.objs j).map keyAtt := by
  rcases dropStrong_spec s i with ⟨hEq, _⟩ | ⟨o, h, h2, hEq⟩ | ⟨o, h, h1, hatt, hEq⟩ |
    ⟨o, h, h1, hatt, hEq⟩ <;> rw [hEq]
  all_goals
    by_cases hj : i = j
    · subst hj
      rw [modifyObj_at_self h, h]
      rfl
    · rw [modifyObj_at_ne hj]

theorem dropStrong_alive_mono (s : St K) (i j : Nat) (o' : Obj K)
    (h2 : objAt (dropStrong s i).1.objs j = some o') (ha : o'.alive = true) :
    ∃ o0, objAt s.objs j = some o0 ∧ o0.alive = true := by
  rcases dropStrong_spec s i with ⟨hEq, _⟩ | ⟨o, h, hs2, hEq⟩ | ⟨o, h, h1, hatt, hEq⟩ |
    ⟨o, h, h1, hatt, hEq⟩ <;> rw [hEq] at h2
  · exact ⟨o', h2, ha⟩
  · by_cases hj : i = j
    · subst hj
      rw [modifyObj_at_self h] at h2
      injection h2 with he
      rw [← he] at ha
      exact ⟨o, h, ha⟩
    · rw [modifyObj_at_ne hj] at h2
      exact ⟨o', h2, ha⟩
  all_goals
    by_cases hj : i = j
    · subst hj
      rw [modifyObj_at_self h] at h2
      injection h2 with he
      rw [← he] at ha
      cases ha
    · rw [modifyObj_at_ne hj] at h2
      exact ⟨o', h2, ha⟩

theorem dropStrong_cache_sub (s : St K) (i : Nat) {p : K × Nat}
    (hp : p ∈ (dropStrong s i).1.cache) : p ∈ s.cache := by
  rcases dropStrong_spec s i with ⟨hEq, _⟩ | ⟨o, h, h2, hEq⟩ | ⟨o, h, h1, hatt, hEq⟩ |
    ⟨o, h, h1, hatt, hEq⟩ <;> rw [hEq] at hp
  · exact hp
  · exact hp
  · exact (mem_mapErase.mp hp).1
  · exact hp

theorem dropStrong_trace_shape (s : St K) (i : Nat) {e : Event K}
    (he : e ∈ (dropStrong s i).2) :
    (∃ k0, e = Event.cacheErase k0) ∨ (∃ j, e = Event.freeValue j) := by
  rcases dropStrong_spec s i with ⟨hEq, _⟩ | ⟨o, h, h2, hEq⟩ | ⟨o, h, h1, hatt, hEq⟩ |
    ⟨o, h, h1, hatt, hEq⟩ <;> rw [hEq] at he
  · cases he
  · cases he
  · rcases List.mem_cons.mp he with rfl | he2
    · exact Or.inl ⟨o.key, rfl⟩
    · rcases List.mem_cons.mp he2 with rfl | he3
      · exact Or.inr ⟨i, rfl⟩
      · cases he3
  · rcases List.mem_cons.mp he with rfl | he2
    · exact Or.inr ⟨i, rfl⟩
    · cases he2

theorem dropStrong_aliveOk (s : St K) (i : Nat) (hA : AliveOk s.objs) :
    AliveOk (dropStrong s i).1.objs := by
  rcases dropStrong_spec s i with ⟨hEq, _⟩ | ⟨o, h, hs2, hEq⟩ | ⟨o, h, h1, hatt, hEq⟩ |
    ⟨o, h, h1, hatt, hEq⟩ <;> rw [hEq]
  · exact hA
  · intro j o' h2
    by_cases hj : i = j
    · subst hj
      rw [modifyObj_at_self h] at h2
      injection h2 with he
      rw [← he]
      have halive : o.alive = true := (hA i o h).mpr (by omega)
      show o.alive = true ↔ 0 < o.strong - 1
      rw [halive]
      constructor
      · intro _; omega
      · intro _; rfl
    · rw [modifyObj_at_ne hj] at h2
      exact hA j o' h2
  all_goals
    intro j o' h2
    by_cases hj : i = j
    · subst hj
      rw [modifyObj_at_self h] at h2
      injection h2 with he
      rw [← he]
      show false = true ↔ 0 < o.strong - 1
      rw [h1]
      simp
    · rw [modifyObj_at_ne hj] at h2
      exact hA j o' h2

theorem dropStrong_cacheOk (s : St K) (i : Nat) (hC : CacheOk s.cache s.objs)
    (hA : AliveOk s.objs) :
    CacheOk (dropStrong s i).1.cache (dropStrong s i).1.objs := by
  obtain ⟨hN, hE, hL⟩ := hC
  rcases dropStrong_spec s i with ⟨hEq, _⟩ | ⟨o, h, hs2, hEq⟩ | ⟨o, h, h1, hatt, hEq⟩ |
    ⟨o, h, h1, hatt, hEq⟩ <;> rw [hEq]
  · exact ⟨hN, hE, hL⟩
  · -- count stays positive: only the count changed
    refine ⟨hN, ?_, ?_⟩
    · intro p hp
      obtain ⟨o0, ho0, hk, hal, hat⟩ := hE p hp
      by_cases hj : i = p.2
      · subst hj
        rw [h] at ho0
        injection ho0 with he
        subst he
        exact ⟨{ o with strong := o.strong - 1 }, modifyObj_at_self h, hk, hal, hat⟩
      · refine ⟨o0, ?_, hk, hal, hat⟩
        rw [modifyObj_at_ne hj]
        exact ho0
    · intro j o2 h2 hal2
      by_cases hj : i = j
      · subst hj
        rw [modifyObj_at_self h] at h2
        injection h2 with he
        rw [← he] at hal2 ⊢
        exact hL i o h hal2
      · rw [modifyObj_at_ne hj] at h2
        exact hL j o2 h2 hal2
  · -- the object dies and its entry is erased
    have halive : o.alive = true := (hA i o h).mpr (by omega)
    have hmem : (o.key, i) ∈ s.cache := (hL i o h halive).2
    refine ⟨keysNodup_mapErase hN, ?_, ?_⟩
    · intro p hp
      obtain ⟨hp0, hkne⟩ := mem_mapErase.mp hp
      obtain ⟨o0, ho0, hk, hal, hat⟩ := hE p hp0
      by_cases hj : i = p.2
      · subst hj
        rw [h] at ho0
        injection ho0 with he
        subst he
        exact absurd hk.symm hkne
      · refine ⟨o0, ?_, hk, hal, hat⟩
        rw [modifyObj_at_ne hj]
        exact ho0
    · intro j o2 h2 hal2
      by_cases hj : i = j
      · subst hj
        rw [modifyObj_at_self h] at h2
        injection h2 with he
        rw [← he] at hal2
        cases hal2
      · rw [modifyObj_at_ne hj] at h2
        obtain ⟨hat2, hmem2⟩ := hL j o2 h2 hal2
        refine ⟨hat2, mem_mapErase.mpr ⟨hmem2, ?_⟩⟩
        intro hkeq
        have := eq_of_mem_keysNodup hN hmem2 hmem hkeq
        injection this with hk2 hi2
        exact hj hi2.symm
  · -- the object dies unattached: no live entry can point at it
    refine ⟨hN, ?_, ?_⟩
    · intro p hp
      obtain ⟨o0, ho0, hk, hal, hat⟩ := hE p hp
      by_cases hj : i = p.2
      · subst hj
        rw [h] at ho0
        injection ho0 with he
        subst he
        rw [hat] at hatt
        cases hatt
      · refine ⟨o0, ?_, hk, hal, hat⟩
        rw [modifyObj_at_ne hj]
        exact ho0
    · intro j o2 h2 hal2
      by_cases hj : i = j
      · subst hj
        rw [modifyObj_at_self h] at h2
        injection h2 with he
        rw [← he] at hal2
        cases hal2
      · rw [modifyObj_at_ne hj] at h2
        exact hL j o2 h2 hal2

theorem dropStrong_entry_iff (s : St K) (i : Nat) (hC : CacheOk s.cache s.objs)
    (hA : AliveOk s.objs) {k2 : K} {i2 : Nat} (hm : (k2, i2) ∈ s.cache) :
    ((k2, i2) ∈ (dropStrong s i).1.cache ↔
      ∃ o2, objAt (dropStrong s i).1.objs i2 = some o2 ∧ o2.alive = true) := by
  obtain ⟨hN, hE, hL⟩ := hC
  obtain ⟨oe, hoe, hke, hale, hate⟩ := hE (k2, i2) hm
  rcases dropStrong_spec s i with ⟨hEq, _⟩ | ⟨o, h, hs2, hEq⟩ | ⟨o, h, h1, hatt, hEq⟩ |
    ⟨o, h, h1, hatt, hEq⟩ <;> rw [hEq]
  · exact ⟨fun _ => ⟨oe, hoe, hale⟩, fun _ => hm⟩
  · refine ⟨fun _ => ?_, fun _ => hm⟩
    by_cases hj : i = i2
    · subst hj
      rw [h] at hoe
      injection hoe with he
      subst he
      exact ⟨{ o with strong := o.strong - 1 }, modifyObj_at_self h, hale⟩
    · refine ⟨oe, ?_, hale⟩
      rw [modifyObj_at_ne hj]
      exact hoe
  · -- erase case
    have halive : o.alive = true := (hA i o h).mpr (by omega)
    have hmem : (o.key, i) ∈ s.cache := (hL i o h halive).2
    by_cases hj : i = i2
    · subst hj
      rw [h] at hoe
      injection hoe with he
      subst he
      constructor
      · intro hin
        exact ((mem_mapErase.mp hin).2 hke.symm).elim
      · intro hex
        obtain ⟨o2, h2, hal2⟩ := hex
        rw [modifyObj_at_self h] at h2
        injection h2 with he2
        rw [← he2] at hal2
        cases hal2
    · have hkne : ¬ k2 = o.key := by
        intro hkeq
        have := eq_of_mem_keysNodup hN hm hmem hkeq
        injection this with hk2 hi2
        exact hj hi2.symm
      constructor
      · intro _
        refine ⟨oe, ?_, hale⟩
        rw [modifyObj_at_ne hj]
        exact hoe
      · intro _
        exact mem_mapErase.mpr ⟨hm, hkne⟩
  · -- unattached death: the entry cannot point at the dying object
    by_cases hj : i = i2
    · subst hj
      rw [h] at hoe
      injection hoe with he
      subst he
      rw [hate] at hatt
      cases hatt
    · refine ⟨fun _ => ?_, fun _ => hm⟩
      refine ⟨oe, ?_, hale⟩
      rw [modifyObj_at_ne hj]
      exact hoe

theorem dropStrong_lookup_pres (s : St K) (i : Nat) (k : K)
    (hk : ∀ o, objAt s.objs i = some o → ¬ o.key = k) :
    lookup (dropStrong s i).1.cache k = lookup s.cache k := by
  rcases dropStrong_spec s i with ⟨hEq, _⟩ | ⟨o, h, hs2, hEq⟩ | ⟨o, h, h1, hatt, hEq⟩ |
    ⟨o, h, h1, hatt, hEq⟩ <;> rw [hEq]
  · exact lookup_mapErase_ne (fun hh => hk o h hh.symm)

/-! Lemmas about destroying a whole list of shared pointers. -/

theorem dropAll_retained (s : St K) (l : List (Option Nat)) :
    (dropAll s l).1.retained = s.retained ∧ (dropAll s l).1.policy = s.policy := by
  induction l generalizing s with
  | nil => exact ⟨rfl, rfl⟩
  | cons v rest ih =>
    cases v with
    | none => exact ih s
    | some m =>
      have h1 := dropStrong_retained s m
      have h2 := ih (dropStrong s m).1
      exact ⟨h2.1.trans h1.1, h2.2.trans h1.2⟩

theorem dropAll_length (s : St K) (l : List (Option Nat)) :
    (dropAll s l).1.objs.length = s.objs.length := by
  induction l generalizing s with
  | nil => rfl
  | cons v rest ih =>
    cases v with
    | none => exact ih s
    | some m => exact (ih (dropStrong s m).1).trans (dropStrong_length s m)

theorem dropAll_keyAtt (s : St K) (l : List (Option Nat)) (j : Nat) :
    (objAt (dropAll s l).1.objs j).map keyAtt = (objAt s.objs j).map keyAtt := by
  induction l generalizing s with
  | nil => rfl
  | cons v rest ih =>
    cases v with
    | none => exact ih s
    | some m => exact (ih (dropStrong s m).1).trans (dropStrong_keyAtt s m j)

theorem dropAll_alive_mono (s : St K) (l : List (Option Nat)) (j : Nat) (o2 : Obj K)
    (h2 : objAt (dropAll s l).1.objs j = some o2) (ha : o2.alive = true) :
    ∃ o0, objAt s.objs j = some o0 ∧ o0.alive = true := by
  induction l generalizing s o2 with
  | nil => exact ⟨o2, h2, ha⟩
  | cons v rest ih =>
    cases v with
    | none => exact ih s o2 h2 ha
    | some m =>
      obtain ⟨o1, h1, ha1⟩ := ih (dropStrong s m).1 o2 h2 ha
      exact dropStrong_alive_mono s m j o1 h1 ha1

theorem dropAll_cache_sub (s : St K) (l : List (Option Nat)) {p : K × Nat}
    (hp : p ∈ (dropAll s l).1.cache) : p ∈ s.cache := by
  induction l generalizing s with
  | nil => exact hp
  | cons v rest ih =>
    cases v with
    | none => exact ih s hp
    | some m => exact dropStrong_cache_sub s m (ih (dropStrong s m).1 hp)

theorem dropAll_aliveOk (s : St K) (l : List (Option Nat)) (hA : AliveOk s.objs) :
    AliveOk (dropAll s l).1.objs := by
  induction l generalizing s with
  | nil => exact hA
  | cons v rest ih =>
    cases v with
    | none => exact ih s hA
    | some m => exact ih (dropStrong s m).1 (dropStrong_aliveOk s m hA)

theorem dropAll_cacheOk (s : St K) (l : List (Option Nat)) (hC : CacheOk s.cache s.objs)
    (hA : AliveOk s.objs) : CacheOk (dropAll s l).1.cache (dropAll s l).1.objs := by
  induction l generalizing s with
  | nil => exact hC
  | cons v rest ih =>
    cases v with
    | none => exact ih s hC hA
    | some m =>
      exact ih (dropStrong s m).1 (dropStrong_cacheOk s m hC hA) (dropStrong_aliveOk s m hA)

theorem dropAll_entry_iff (s : St K) (l : List (Option Nat)) (hC : CacheOk s.cache s.objs)
    (hA : AliveOk s.objs) {k2 : K} {i2 : Nat} (hm : (k2, i2) ∈ s.cache) :
    ((k2, i2) ∈ (dropAll s l).1.cache ↔
      ∃ o2, objAt (dropAll s l).1.objs i2 = some o2 ∧ o2.alive = true) := by
  induction l generalizing s with
  | nil =>
    obtain ⟨hN, hE, hL⟩ := hC
    obtain ⟨o0, h0, _, hal, _⟩ := hE (k2, i2) hm
    exact ⟨fun _ => ⟨o0, h0, hal⟩, fun _ => hm⟩
  | cons v rest ih =>
    cases v with
    | none => exact ih s hC hA hm
    | some m =>
      have hstep := dropStrong_entry_iff s m hC hA hm
      by_cases hin : (k2, i2) ∈ (dropStrong s m).1.cache
      · exact ih (dropStrong s m).1 (dropStrong_cacheOk s m hC hA)
          (dropStrong_aliveOk s m hA) hin
      · constructor
        · intro hfin
          exact absurd (dropAll_cache_sub (dropStrong s m).1 rest hfin) hin
        · intro hex
          obtain ⟨o2, h2, hal⟩ := hex
          obtain ⟨o0, h0, hal0⟩ := dropAll_alive_mono (dropStrong s m).1 rest i2 o2 h2 hal
          exact absurd (hstep.mpr ⟨o0, h0, hal0⟩) hin

theorem dropAll_lookup_pres (s : St K) (l : List (Option Nat)) (k : K)
    (hk : ∀ m, some m ∈ l → ∀ o, objAt s.objs m = some o → ¬ o.key = k) :
    lookup (dropAll s l).1.cache k = lookup s.cache k := by
  induction l generalizing s with
  | nil => rfl
  | cons v rest ih =>
    cases v with
    | none =>
      exact ih s (fun mm hmm => hk mm (List.mem_cons_of_mem _ hmm))
    | some m =>
      have hk0 : ∀ o, objAt s.objs m = some o → ¬ o.key = k :=
        hk m (List.mem_cons_self _ _)
      have hrest : ∀ mm, some mm ∈ rest → ∀ o,
          objAt (dropStrong s m).1.objs mm = some o → ¬ o.key = k := by
        intro mm hmm o ho hc
        obtain ⟨o1, h1, hkeq, _⟩ := of_keyAtt_eq (dropStrong_keyAtt s m mm) ho
        exact hk mm (List.mem_cons_of_mem _ hmm) o1 h1 (by rw [hkeq, hc])
      exact (ih (dropStrong s m).1 hrest).trans (dropStrong_lookup_pres s m k hk0)

theorem dropAll_trace_shape (s : St K) (l : List (Option Nat)) {e : Event K}
    (he : e ∈ (dropAll s l).2) :
    (∃ k0, e = Event.cacheErase k0) ∨ (∃ j, e = Event.freeValue j) := by
  induction l generalizing s with
  | nil => cases he
  | cons v rest ih =>
    cases v with
    | none => exact ih s he
    | some m =>
      rcases List.mem_append.mp he with h1 | h2
      · exact dropStrong_trace_shape s m h1
      · exact ih (dropStrong s m).1 h2

/-! Lemmas about the retention-policy insert. -/

theorem retInsert_eq_of_keepNothing {s : St K} {v : Option Nat}
    (h : s.policy = Policy.keepNothing) : retInsert s v = (s, []) := by
  unfold retInsert
  rw [h]

theorem retInsert_eq_of_keepSet {s : St K} {v : Option Nat} {N : Nat}
    (h : s.policy = Policy.keepSet N) : retInsert s v = ksaInsert s N v := by
  unfold retInsert
  rw [h]

theorem clearRet_retained (s : St K) : (clearRet s).1.retained = [] := rfl

theorem clearRet_cache (s : St K) : (clearRet s).1.cache = (dropAll s s.retained).1.cache := rfl

theorem clearRet_objs (s : St K) : (clearRet s).1.objs = (dropAll s s.retained).1.objs := rfl

theorem clearRet_trace (s : St K) :
    (clearRet s).2 = (dropAll s s.retained).2 ++ [Event.retainClear] := rfl

theorem modify_bump_alive (objs : List (Obj K)) (i j : Nat) :
    (objAt (modifyObj objs i (fun a => { a with strong := a.strong + 1 })) j).map
        (fun o => o.alive)
      = (objAt objs j).map (fun o => o.alive) := by
  cases h : objAt objs i with
  | none => rw [modifyObj_none h]
  | some o =>
    by_cases hj : i = j
    · subst hj
      rw [modifyObj_at_self h, h]
      rfl
    · rw [modifyObj_at_ne hj]

theorem alive_of_map_eq {l1 l2 : List (Obj K)} {j : Nat}
    (hmap : (objAt l2 j).map (fun o => o.alive) = (objAt l1 j).map (fun o => o.alive)) :
    ((∃ o2, objAt l2 j = some o2 ∧ o2.alive = true) ↔
      (∃ o1, objAt l1 j = some o1 ∧ o1.alive = true)) := by
  cases h2 : objAt l2 j with
  | none =>
    rw [h2] at hmap
    cases h1 : objAt l1 j with
    | none => simp
    | some o1 => rw [h1] at hmap; cases hmap
  | some o2 =>
    rw [h2] at hmap
    cases h1 : objAt l1 j with
    | none => rw [h1] at hmap; cases hmap
    | some o1 =>
      rw [h1] at hmap
      injection hmap with he
      have he2 : o2.alive = o1.alive := he
      constructor
      · rintro ⟨o, ho, hal⟩
        injection ho with ho2
        refine ⟨o1, rfl, ?_⟩
        rw [← he2, ho2]
        exact hal
      · rintro ⟨o, ho, hal⟩
        injection ho with ho2
        refine ⟨o2, rfl, ?_⟩
        rw [he2, ho2]
        exact hal

theorem ksaInsert_entry_iff (s : St K) (N : Nat) (v : Option Nat)
    (hC : CacheOk s.cache s.objs) (hA : AliveOk s.objs)
    {k2 : K} {i2 : Nat} (hm : (k2, i2) ∈ s.cache) :
    ((k2, i2) ∈ (ksaInsert s N v).1.cache ↔
      ∃ o2, objAt (ksaInsert s N v).1.objs i2 = some o2 ∧ o2.alive = true) := by
  obtain ⟨o0, h0, _, hal0, _⟩ := hC.2.1 (k2, i2) hm
  simp only [ksaInsert]
  by_cases hle : N ≤ s.retained.length
  · rw [if_pos hle, clearRet_retained, if_neg (List.not_mem_nil v)]
    have iff1 := dropAll_entry_iff s s.retained hC hA hm
    cases v with
    | none => exact iff1
    | some i =>
      exact iff1.trans
        (alive_of_map_eq (modify_bump_alive (dropAll s s.retained).1.objs i i2)).symm
  · rw [if_neg hle]
    by_cases hv : v ∈ s.retained
    · rw [if_pos hv]
      exact ⟨fun _ => ⟨o0, h0, hal0⟩, fun _ => hm⟩
    · rw [if_neg hv]
      cases v with
      | none => exact ⟨fun _ => ⟨o0, h0, hal0⟩, fun _ => hm⟩
      | some i =>
        exact (Iff.intro (fun _ => ⟨o0, h0, hal0⟩) (fun _ => hm)).trans
          (alive_of_map_eq (modify_bump_alive s.objs i i2)).symm

theorem ksaInsert_trace_shape (s : St K) (N : Nat) (v : Option Nat) {e : Event K}
    (he : e ∈ (ksaInsert s N v).2) :
    e = Event.retainClear ∨ e = Event.retainInsert ∨
      (∃ k0, e = Event.cacheErase k0) ∨ (∃ j, e = Event.freeValue j) := by
  have hclr : ∀ e2 : Event K, e2 ∈ (clearRet s).2 →
      e2 = Event.retainClear ∨ e2 = Event.retainInsert ∨
        (∃ k0, e2 = Event.cacheErase k0) ∨ (∃ j, e2 = Event.freeValue j) := by
    intro e2 he2
    rw [clearRet_trace] at he2
    rcases List.mem_append.mp he2 with h1 | h2
    · rcases dropAll_trace_shape s s.retained h1 with h | h
      · exact Or.inr (Or.inr (Or.inl h))
      · exact Or.inr (Or.inr (Or.inr h))
    · rcases List.mem_cons.mp h2 with rfl | h3
      · exact Or.inl rfl
      · cases h3
  simp only [ksaInsert] at he
  by_cases hle : N ≤ s.retained.length
  · rw [if_pos hle, clearRet_retained, if_neg (List.not_mem_nil v)] at he
    cases v with
    | none =>
      rcases List.mem_append.mp he with h1 | h2
      · exact hclr e h1
      · rcases List.mem_cons.mp h2 with rfl | h3
        · exact Or.inr (Or.inl rfl)
        · cases h3
    | some i =>
      rcases List.mem_append.mp he with h1 | h2
      · exact hclr e h1
      · rcases List.mem_cons.mp h2 with rfl | h3
        · exact Or.inr (Or.inl rfl)
        · cases h3
  · rw [if_neg hle] at he
    by_cases hv : v ∈ s.retained
    · rw [if_pos hv] at he
      cases he
    · rw [if_neg hv] at he
      cases v with
      | none =>
        rcases List.mem_append.mp he with h1 | h2
        · cases h1
        · rcases List.mem_cons.mp h2 with rfl | h3
          · exact Or.inr (Or.inl rfl)
          · cases h3
      | some i =>
        rcases List.mem_append.mp he with h1 | h2
        · cases h1
        · rcases List.mem_cons.mp h2 with rfl | h3
          · exact Or.inr (Or.inl rfl)
          · cases h3

theorem ksaInsert_lookup_pres (s : St K) (N : Nat) (v : Option Nat) (k : K)
    (hk : ∀ m, some m ∈ s.retained → ∀ o, objAt s.objs m = some o → ¬ o.key = k) :
    lookup (ksaInsert s N v).1.cache k = lookup s.cache k := by
  simp only [ksaInsert]
  by_cases hle : N ≤ s.retained.length
  · rw [if_pos hle, clearRet_retained, if_neg (List.not_mem_nil v)]
    cases v with
    | none => exact dropAll_lookup_pres s s.retained k hk
    | some i => exact dropAll_lookup_pres s s.retained k hk
  · rw [if_neg hle]
    by_cases hv : v ∈ s.retained
    · rw [if_pos hv]
    · rw [if_neg hv]
      cases v with
      | none => rfl
      | some i => rfl

/-! Extraction of the executable well-formedness check and strong-count
bump lemmas. -/

theorem entryOkB_of_some {objs : List (Obj K)} {p : K × Nat} {o : Obj K}
    (h : objAt objs p.2 = some o) :
    entryOkB objs p = (decide (o.key = p.1) && o.alive && o.attached) := by
  unfold entryOkB
  rw [h]

theorem liveInB_of_some {cache : List (K × Nat)} {objs : List (Obj K)} {i : Nat} {o : Obj K}
    (h : objAt objs i = some o) :
    liveInB cache objs i = (!o.alive || (o.attached && decide ((o.key, i) ∈ cache))) := by
  unfold liveInB
  rw [h]

theorem aliveOkB_of_some {objs : List (Obj K)} {i : Nat} {o : Obj K}
    (h : objAt objs i = some o) :
    aliveOkB objs i = (o.alive == decide (0 < o.strong)) := by
  unfold aliveOkB
  rw [h]

theorem retLiveB_of_some {objs : List (Obj K)} {m : Nat} :
    retLiveB objs (some m)
      = (match objAt objs m with | some o => o.alive | none => false) := rfl

theorem wf_cacheOk (s : St K) (h : wfB s = true) : CacheOk s.cache s.objs := by
  simp only [wfB, Bool.and_eq_true, List.all_eq_true, decide_eq_true_eq] at h
  obtain ⟨⟨⟨⟨⟨h1, h2⟩, h3⟩, h4⟩, h5⟩, h6⟩ := h
  refine ⟨h1, ?_, ?_⟩
  · intro p hp
    have hh := h2 p hp
    obtain ⟨r, hr⟩ : ∃ r, objAt s.objs p.2 = r := ⟨_, rfl⟩
    cases r with
    | none =>
      unfold entryOkB at hh
      rw [hr] at hh
      cases hh
    | some o =>
      rw [entryOkB_of_some hr] at hh
      simp only [Bool.and_eq_true, decide_eq_true_eq] at hh
      exact ⟨o, hr, hh.1.1, hh.1.2, hh.2⟩
  · intro i o ho hal
    have hh := h3 i (List.mem_range.mpr (objAt_lt ho))
    rw [liveInB_of_some ho, hal] at hh
    simp only [Bool.not_true, Bool.false_or, Bool.and_eq_true, decide_eq_true_eq] at hh
    exact hh

theorem wf_aliveOk (s : St K) (h : wfB s = true) : AliveOk s.objs := by
  simp only [wfB, Bool.and_eq_true, List.all_eq_true, decide_eq_true_eq] at h
  obtain ⟨⟨⟨⟨⟨h1, h2⟩, h3⟩, h4⟩, h5⟩, h6⟩ := h
  intro i o ho
  have hh := h4 i (List.mem_range.mpr (objAt_lt ho))
  rw [aliveOkB_of_some ho] at hh
  rw [beq_iff_eq] at hh
  rw [hh]
  exact ⟨fun hd => of_decide_eq_true hd, fun hp => decide_eq_true hp⟩

theorem wf_retainedLive (s : St K) (h : wfB s = true) :
    ∀ m, some m ∈ s.retained → ∃ o, objAt s.objs m = some o ∧ o.alive = true := by
  simp only [wfB, Bool.and_eq_true, List.all_eq_true, decide_eq_true_eq] at h
  obtain ⟨⟨⟨⟨⟨h1, h2⟩, h3⟩, h4⟩, h5⟩, h6⟩ := h
  intro m hm
  have hh := h5 (some m) hm
  rw [retLiveB_of_some] at hh
  obtain ⟨r, hr⟩ : ∃ r, objAt s.objs m = r := ⟨_, rfl⟩
  cases r with
  | none => rw [hr] at hh; cases hh
  | some o =>
    rw [hr] at hh
    exact ⟨o, hr, hh⟩

theorem wf_retainedNodup (s : St K) (h : wfB s = true) : s.retained.Nodup := by
  simp only [wfB, Bool.and_eq_true, List.all_eq_true, decide_eq_true_eq] at h
  exact h.2

theorem bump_cacheOk {c : List (K × Nat)} {objs : List (Obj K)} {i : Nat}
    (hC : CacheOk c objs) :
    CacheOk c (modifyObj objs i (fun a => { a with strong := a.strong + 1 })) := by
  obtain ⟨hN, hE, hL⟩ := hC
  cases h : objAt objs i with
  | none =>
    rw [modifyObj_none h]
    exact ⟨hN, hE, hL⟩
  | some o =>
    refine ⟨hN, ?_, ?_⟩
    · intro p hp
      obtain ⟨o0, ho0, hk, hal, hat⟩ := hE p hp
      by_cases hj : i = p.2
      · subst hj
        rw [h] at ho0
        injection ho0 with he
        subst he
        exact ⟨{ o with strong := o.strong + 1 }, modifyObj_at_self h, hk, hal, hat⟩
      · refine ⟨o0, ?_, hk, hal, hat⟩
        rw [modifyObj_at_ne hj]
        exact ho0
    · intro j o2 h2 hal2
      by_cases hj : i = j
      · subst hj
        rw [modifyObj_at_self h] at h2
        injection h2 with he
        rw [← he] at hal2 ⊢
        exact hL i o h hal2
      · rw [modifyObj_at_ne hj] at h2
        exact hL j o2 h2 hal2

theorem bump_aliveOk {objs : List (Obj K)} {i : Nat} {o : Obj K}
    (h : objAt objs i = some o) (hal : o.alive = true) (hA : AliveOk objs) :
    AliveOk (modifyObj objs i (fun a => { a with strong := a.strong + 1 })) := by
  intro j o2 h2
  by_cases hj : i = j
  · subst hj
    rw [modifyObj_at_self h] at h2
    injection h2 with he
    rw [← he]
    show o.alive = true ↔ 0 < o.strong + 1
    rw [hal]
    exact ⟨fun _ => Nat.succ_pos _, fun _ => rfl⟩
  · rw [modifyObj_at_ne hj] at h2
    exact hA j o2 h2

/-! Policy dispatch wrappers for the retention insert. -/

theorem retInsert_entry_iff (s : St K) (v : Option Nat)
    (hC : CacheOk s.cache s.objs) (hA : AliveOk s.objs)
    {k2 : K} {i2 : Nat} (hm : (k2, i2) ∈ s.cache) :
    ((k2, i2) ∈ (retInsert s v).1.cache ↔
      ∃ o2, objAt (retInsert s v).1.objs i2 = some o2 ∧ o2.alive = true) := by
  obtain ⟨P, hpol⟩ : ∃ P, s.policy = P := ⟨_, rfl⟩
  cases P with
  | keepNothing =>
    rw [retInsert_eq_of_keepNothing hpol]
    obtain ⟨o0, h0, _, hal0, _⟩ := hC.2.1 (k2, i2) hm
    exact ⟨fun _ => ⟨o0, h0, hal0⟩, fun _ => hm⟩
  | keepSet N =>
    rw [retInsert_eq_of_keepSet hpol]
    exact ksaInsert_entry_iff s N v hC hA hm

theorem retInsert_trace_shape (s : St K) (v : Option Nat) {e : Event K}
    (he : e ∈ (retInsert s v).2) :
    e = Event.retainClear ∨ e = Event.retainInsert ∨
      (∃ k0, e = Event.cacheErase k0) ∨ (∃ j, e = Event.freeValue j) := by
  obtain ⟨P, hpol⟩ : ∃ P, s.policy = P := ⟨_, rfl⟩
  cases P with
  | keepNothing =>
    rw [retInsert_eq_of_keepNothing hpol] at he
    cases he
  | keepSet N =>
    rw [retInsert_eq_of_keepSet hpol] at he
    exact ksaInsert_trace_shape s N v he

theorem retInsert_lookup_pres (s : St K) (v : Option Nat) (k : K)
    (hk : ∀ m, some m ∈ s.retained → ∀ o, objAt s.objs m = some o → ¬ o.key = k) :
    lookup (retInsert s v).1.cache k = lookup s.cache k := by
  obtain ⟨P, hpol⟩ : ∃ P, s.policy = P := ⟨_, rfl⟩
  cases P with
  | keepNothing => rw [retInsert_eq_of_keepNothing hpol]
  | keepSet N =>
    rw [retInsert_eq_of_keepSet hpol]
    exact ksaInsert_lookup_pres s N v k hk

/-! Branch equations for `get`. -/

theorem lockWeak_of_alive {objs : List (Obj K)} {i : Nat} {o : Obj K}
    (h : objAt objs i = some o) (hal : o.alive = true) : lockWeak objs i = some i := by
  unfold lockWeak
  rw [h]
  exact if_pos hal

theorem get_eq_hit {s : St K} {k : K} {i : Nat} (hl : lookup s.cache k = some i)
    (fail : Bool) : get s k fail = getHit s i := by
  unfold get
  rw [hl]

theorem get_eq_miss {s : St K} {k : K} (hl : lookup s.cache k = none) (fail : Bool) :
    get s k fail = getMiss s k fail := by
  unfold get
  rw [hl]

theorem getHit_alive {s : St K} {i : Nat} (hw : lockWeak s.objs i = some i) :
    getHit s i =
      { result := some (some i),
        st := (retInsert (bumpAt s i) (some i)).1,
        created := false,
        trace := Event.lockAcquire ::
          ((retInsert (bumpAt s i) (some i)).2 ++ [Event.lockRelease]) } := by
  unfold getHit
  rw [hw]
  rfl

theorem getHit_dead {s : St K} {i : Nat} (hw : lockWeak s.objs i = none) :
    getHit s i =
      { result := some none,
        st := (retInsert s none).1,
        created := false,
        trace := Event.lockAcquire :: ((retInsert s none).2 ++ [Event.lockRelease]) } := by
  unfold getHit
  rw [hw]

theorem getMiss_fail (s : St K) (k : K) :
    getMiss s k true =
      { result := none, st := s, created := false,
        trace := [Event.lockAcquire, Event.createCall, Event.lockRelease] } := rfl

theorem getMiss_ok (s : St K) (k : K) :
    getMiss s k false =
      { result := some (some s.objs.length),
        st := (retInsert (insState s k) (some s.objs.length)).1,
        created := true,
        trace := Event.lockAcquire :: Event.createCall ::
          Event.cacheInsert k s.objs.length ::
          ((retInsert (insState s k) (some s.objs.length)).2 ++ [Event.lockRelease]) } := rfl

/-! The claims. -/

/-- Claim C1: for every key k and constructors c1, c2: if a strong
reference obtained from `get(k, c1)` is still held (object `i` has a
positive strong count in a well-formed state), then `get(k, c2)` returns
the same instance — the identical cached value `i` — and does not invoke
`c2` (no `createCall` event; `created` is false).  This holds whether or
not the constructor would fail. -/
theorem c1_identity_under_liveness (s : St K) (hwf : wfB s = true) (i : Nat) (o : Obj K)
    (ho : objAt s.objs i = some o) (hheld : 0 < o.strong) (fail : Bool) :
    (get s o.key fail).result = some (some i) ∧
    (get s o.key fail).created = false ∧
    Event.createCall ∉ (get s o.key fail).trace := by
  have hC := wf_cacheOk s hwf
  have hA := wf_aliveOk s hwf
  have hal : o.alive = true := (hA i o ho).mpr hheld
  obtain ⟨hatt, hmem⟩ := hC.2.2 i o ho hal
  have hl : lookup s.cache o.key = some i := lookup_eq_of_mem hC.1 hmem
  have hw : lockWeak s.objs i = some i := lockWeak_of_alive ho hal
  rw [get_eq_hit hl fail, getHit_alive hw]
  refine ⟨rfl, rfl, ?_⟩
  intro hin
  rcases List.mem_cons.mp hin with he | hin2
  · cases he
  · rcases List.mem_append.mp hin2 with h1 | h2
    · rcases retInsert_trace_shape _ _ h1 with h | h | ⟨k0, h⟩ | ⟨j, h⟩ <;> cases h
    · rcases List.mem_cons.mp h2 with he2 | he3
      · cases he2
      · cases he3

/-- Claim C2: when the constructor throws on a miss, `get` leaves the whole
factory state exactly as it was (no entry inserted, no partial state) and
propagates the failure (`result = none`); a subsequent `get` for the same
key — the state being unchanged, it is `get s k false` itself — retries
construction and returns a freshly constructed value (the id
`s.objs.length`, which no existing object has). -/
theorem c2_construction_failure_atomicity (s : St K) (k : K)
    (hmiss : lookup s.cache k = none) :
    (get s k true).st = s ∧ (get s k true).result = none ∧
    objAt s.objs s.objs.length = none ∧
    (get s k false).result = some (some s.objs.length) ∧
    (get s k false).created = true := by
  rw [get_eq_miss hmiss true, get_eq_miss hmiss false, getMiss_fail, getMiss_ok]
  exact ⟨rfl, rfl, objAt_ge (Nat.le_refl _), rfl, rfl⟩

/-- Claim C1 witness at the concrete state `w1`. -/
theorem c1_witness :
    (get w1 5 true).result = some (some 0) ∧
    (get w1 5 true).created = false ∧
    Event.createCall ∉ (get w1 5 true).trace :=
  c1_identity_under_liveness w1 (by decide) 0 ⟨5, 1, true, true⟩ (by decide) (by decide) true

/-- Claim C2 witness at the empty factory. -/
theorem c2_witness :
    (get w2 0 true).st = w2 ∧ (get w2 0 true).result = none ∧
    objAt w2.objs w2.objs.length = none ∧
    (get w2 0 false).result = some (some w2.objs.length) ∧
    (get w2 0 false).created = true :=
  c2_construction_failure_atomicity w2 0 (by decide)

/-- Claim C3 counterexample: at a concrete state with one cached value
whose last strong reference is released, the Finalizer erases the cache
entry while its execution contains no lock acquisition at all — refuting
the claim that the Finalizer acquires the Factory lock before mutating the
cache map.  (Lock events are emitted exactly where the source constructs a
`lock_guard`; `Deleter::operator()` has none.) -/
theorem c3_cex_finalizer_lock :
    Event.cacheErase 5 ∈ (dropStrong w1 0).2 ∧
    Event.lockAcquire ∉ (dropStrong w1 0).2 ∧
    Event.lockRelease ∉ (dropStrong w1 0).2 := by decide

/-- Claim C3 as amended: when the last strong reference is released and the
Finalizer (still attached) removes its entry, it mutates the cache map
directly, WITHOUT acquiring the Factory's mutual-exclusion lock: its
execution contains the `cacheErase` but no lock event.  (Taking the
non-reentrant lock there would deadlock the retention-clear path, which
runs finalizers while `get` already holds the lock.) -/
theorem c3_finalizer_no_lock (s : St K) (i : Nat) (o : Obj K)
    (ho : objAt s.objs i = some o) (hlast : o.strong = 1) (hatt : o.attached = true) :
    Event.cacheErase o.key ∈ (dropStrong s i).2 ∧
    ∀ e ∈ (dropStrong s i).2, ¬ e = Event.lockAcquire ∧ ¬ e = Event.lockRelease := by
  rcases dropStrong_spec s i with ⟨hEq, hz⟩ | ⟨o2, h2, hs2, hEq⟩ | ⟨o2, h2, h1, hatt2, hEq⟩ |
    ⟨o2, h2, h1, hatt2, hEq⟩
  · rw [hz o ho] at hlast
    cases hlast
  · rw [ho] at h2
    injection h2 with he
    rw [← he, hlast] at hs2
    exact absurd hs2 (by omega)
  · rw [ho] at h2
    injection h2 with he
    subst he
    rw [hEq]
    refine ⟨List.mem_cons_self _ _, ?_⟩
    intro e hee
    rcases List.mem_cons.mp hee with rfl | hee2
    · exact ⟨(fun hc => nomatch hc), (fun hc => nomatch hc)⟩
    · rcases List.mem_cons.mp hee2 with rfl | hee3
      · exact ⟨(fun hc => nomatch hc), (fun hc => nomatch hc)⟩
      · cases hee3
  · rw [ho] at h2
    injection h2 with he
    rw [← he, hatt] at hatt2
    cases hatt2

/-- Claim C3 amended-claim witness at the concrete state `w1`. -/
theorem c3_witness :
    Event.cacheErase (5 : Nat) ∈ (dropStrong w1 0).2 ∧
    ∀ e ∈ (dropStrong w1 0).2, ¬ e = Event.lockAcquire ∧ ¬ e = Event.lockRelease :=
  c3_finalizer_no_lock w1 0 ⟨5, 1, true, true⟩ (by decide) (by decide) (by decide)

/-- Claim C4: with the default `KeepNothingAlive` policy, once the last
strong reference to the value for a key is released, its entry is gone
(`lookup` misses), and a subsequent `get` invokes the constructor again
(`created = true`) and returns a new, distinct instance: the fresh id is
the table length, which differs from the reclaimed id `i`. -/
theorem c4_reclamation_keep_nothing (s : St K) (hwf : wfB s = true) (i : Nat) (o : Obj K)
    (ho : objAt s.objs i = some o) (hlast : o.strong = 1)
    (_hpol : s.policy = Policy.keepNothing) :
    lookup (dropStrong s i).1.cache o.key = none ∧
    (get (dropStrong s i).1 o.key false).result
      = some (some (dropStrong s i).1.objs.length) ∧
    (get (dropStrong s i).1 o.key false).created = true ∧
    (dropStrong s i).1.objs.length = s.objs.length ∧
    ¬ s.objs.length = i := by
  have hC := wf_cacheOk s hwf
  have hA := wf_aliveOk s hwf
  have hal : o.alive = true := (hA i o ho).mpr (by omega)
  obtain ⟨hatt, hmem⟩ := hC.2.2 i o ho hal
  have hlt : i < s.objs.length := objAt_lt ho
  rcases dropStrong_spec s i with ⟨hEq, hz⟩ | ⟨o2, h2, hs2, hEq⟩ | ⟨o2, h2, h1, hatt2, hEq⟩ |
    ⟨o2, h2, h1, hatt2, hEq⟩
  · rw [hz o ho] at hlast
    cases hlast
  · rw [ho] at h2
    injection h2 with he
    rw [← he, hlast] at hs2
    exact absurd hs2 (by omega)
  · rw [ho] at h2
    injection h2 with he
    subst he
    rw [hEq]
    have hlk : lookup (mapErase s.cache o.key) o.key = none := lookup_mapErase_self
    refine ⟨hlk, ?_, ?_, ?_, by omega⟩
    · rw [get_eq_miss hlk false, getMiss_ok]
    · rw [get_eq_miss hlk false, getMiss_ok]
    · exact length_modifyObj
  · rw [ho] at h2
    injection h2 with he
    rw [← he, hatt] at hatt2
    cases hatt2

/-- Claim C4 witness at the concrete state `w1`. -/
theorem c4_witness :
    lookup (dropStrong w1 0).1.cache 5 = none ∧
    (get (dropStrong w1 0).1 5 false).result
      = some (some (dropStrong w1 0).1.objs.length) ∧
    (get (dropStrong w1 0).1 5 false).created = true ∧
    (dropStrong w1 0).1.objs.length = w1.objs.length ∧
    ¬ w1.objs.length = 0 :=
  c4_reclamation_keep_nothing w1 (by decide) 0 ⟨5, 1, true, true⟩ (by decide) (by decide) rfl

/-- Claim C6: when the Finalizer runs for object `i` (whose key has at most
the object's own entry in the map): if its back-reference is non-null it
removes exactly the entry for its key — never a different generation's
entry — and then releases the storage; if the back-reference is null
(orphaned) it skips the removal and only releases the storage. -/
theorem c6_finalizer_cases (s : St K) (i : Nat) (o : Obj K)
    (ho : objAt s.objs i = some o)
    (hown : ∀ p ∈ s.cache, p.1 = o.key → p = (o.key, i)) :
    (o.attached = true →
      ((∀ p, p ∈ (deleterRun s i).1.cache ↔ (p ∈ s.cache ∧ ¬ p = (o.key, i))) ∧
        (deleterRun s i).2 = [Event.cacheErase o.key, Event.freeValue i])) ∧
    (o.attached = false →
      ((deleterRun s i).1.cache = s.cache ∧
        (deleterRun s i).2 = [Event.freeValue i])) ∧
    (∃ o2, objAt (deleterRun s i).1.objs i = some o2 ∧ o2.alive = false) := by
  have hspec := deleterRun_spec ho
  refine ⟨?_, ?_, ?_⟩
  · intro hatt
    rw [hspec, if_pos hatt]
    refine ⟨fun p => ?_, rfl⟩
    show p ∈ mapErase s.cache o.key ↔ p ∈ s.cache ∧ ¬ p = (o.key, i)
    rw [mem_mapErase]
    constructor
    · rintro ⟨hp, hk⟩
      exact ⟨hp, fun hc => hk (by rw [hc])⟩
    · rintro ⟨hp, hne⟩
      exact ⟨hp, fun hk => hne (hown p hp hk)⟩
  · intro hatt
    rw [hspec, if_neg (fun hc => by rw [hatt] at hc; cases hc)]
    exact ⟨rfl, rfl⟩
  · by_cases hatt : o.attached = true
    · rw [hspec, if_pos hatt]
      exact ⟨{ o with alive := false }, modifyObj_at_self ho, rfl⟩
    · rw [hspec, if_neg hatt]
      exact ⟨{ o with alive := false }, modifyObj_at_self ho, rfl⟩

/-- Claim C6 witness: both the attached case (state `w1`) and the orphaned
case (state `w6`), at concrete inputs. -/
theorem c6_witness :
    ((true = true →
      ((∀ p, p ∈ (deleterRun w1 0).1.cache ↔ (p ∈ w1.cache ∧ ¬ p = (5, 0))) ∧
        (deleterRun w1 0).2 = [Event.cacheErase 5, Event.freeValue 0])) ∧
      (∃ o2, objAt (deleterRun w1 0).1.objs 0 = some o2 ∧ o2.alive = false)) ∧
    ((false = false →
      ((deleterRun w6 0).1.cache = w6.cache ∧
        (deleterRun w6 0).2 = [Event.freeValue 0])) ∧
      (∃ o2, objAt (deleterRun w6 0).1.objs 0 = some o2 ∧ o2.alive = false)) := by
  have h1 := c6_finalizer_cases w1 0 ⟨5, 1, true, true⟩ (by decide) (by decide)
  have h2 := c6_finalizer_cases w6 0 ⟨7, 1, false, true⟩ (by decide) (by decide)
  exact ⟨⟨h1.1, h1.2.2⟩, ⟨fun _ => h2.2.1 rfl, h2.2.2⟩⟩

/-- Claim C9: when `get` finds an entry whose weak reference is expired
(`lock()` fails), it returns a null shared pointer: it does not invoke the
constructor, does not replace the entry (the lookup for that key is
unchanged, provided no retained object carries this key), and hands the
caller an empty strong reference. -/
theorem c9_expired_entry_null (s : St K) (k : K) (i : Nat)
    (hfind : lookup s.cache k = some i)
    (hdead : lockWeak s.objs i = none)
    (hret : ∀ m, some m ∈ s.retained → ∀ o2, objAt s.objs m = some o2 → ¬ o2.key = k)
    (fail : Bool) :
    (get s k fail).result = some none ∧
    (get s k fail).created = false ∧
    Event.createCall ∉ (get s k fail).trace ∧
    lookup (get s k fail).st.cache k = some i := by
  rw [get_eq_hit hfind fail, getHit_dead hdead]
  refine ⟨rfl, rfl, ?_, ?_⟩
  · intro hin
    rcases List.mem_cons.mp hin with he | hin2
    · cases he
    · rcases List.mem_append.mp hin2 with h1 | h2
      · rcases retInsert_trace_shape _ _ h1 with h | h | ⟨k0, h⟩ | ⟨j, h⟩ <;> cases h
      · rcases List.mem_cons.mp h2 with he2 | he3
        · cases he2
        · cases he3
  · rw [retInsert_lookup_pres s none k hret]
    exact hfind

/-- Claim C9 witness at the concrete state `w9`. -/
theorem c9_witness :
    (get w9 4 false).result = some none ∧
    (get w9 4 false).created = false ∧
    Event.createCall ∉ (get w9 4 false).trace ∧
    lookup (get w9 4 false).st.cache 4 = some 0 :=
  c9_expired_entry_null w9 4 0 (by decide) (by decide) (fun m hm => nomatch hm) false

/-- Claim C10: after every `KeepSetAlive::insert`, the working set has at
most `max history 1` members, and whenever its size is already at least
`history` the whole set is cleared before the insert — even when the
inserted pointer is already a member — leaving exactly the one inserted
pointer. -/
theorem c10_retained_size_bound (s : St K) (v : Option Nat) (N : Nat)
    (hpol : s.policy = Policy.keepSet N) :
    (retInsert s v).1.retained.length ≤ max N 1 ∧
    (N ≤ s.retained.length → (retInsert s v).1.retained = [v]) := by
  rw [retInsert_eq_of_keepSet hpol]
  constructor
  · simp only [ksaInsert]
    by_cases hle : N ≤ s.retained.length
    · rw [if_pos hle, clearRet_retained, if_neg (List.not_mem_nil v)]
      cases v with
      | none =>
        show (1 : Nat) ≤ max N 1
        exact Nat.le_max_right N 1
      | some i =>
        show (1 : Nat) ≤ max N 1
        exact Nat.le_max_right N 1
    · rw [if_neg hle]
      have hlt : s.retained.length < N := Nat.lt_of_not_le hle
      have hN : N ≤ max N 1 := Nat.le_max_left N 1
      by_cases hv : v ∈ s.retained
      · rw [if_pos hv]
        show s.retained.length ≤ max N 1
        omega
      · rw [if_neg hv]
        cases v with
        | none =>
          show s.retained.length + 1 ≤ max N 1
          omega
        | some i =>
          show s.retained.length + 1 ≤ max N 1
          omega
  · intro hle
    simp only [ksaInsert]
    rw [if_pos hle, clearRet_retained, if_neg (List.not_mem_nil v)]
    cases v with
    | none => rfl
    | some i => rfl

/-- Claim C10 witness at the concrete state `w10`: a duplicate-free insert
at capacity drops the previous member and leaves exactly the new one. -/
theorem c10_witness :
    (retInsert w10 (some 2)).1.retained.length ≤ max 1 1 ∧
    (1 ≤ w10.retained.length → (retInsert w10 (some 2)).1.retained = [some 2]) :=
  c10_retained_size_bound w10 (some 2) 1 rfl

/-- Claim C5: for `KeepSetAlive` with capacity N, whenever inserting the
value returned by a successful `get` would make the retained set exceed N
(it is at capacity and the value is not yet a member), the entire set is
cleared before the new member is inserted — the set afterwards is exactly
the one new member (drop-all eviction, not LRU).  In particular, with
history 1: `get(0, c0)` creates id 0; after dropping the external
reference, `get(0, c1)` still returns id 0 from the cache without invoking
`c1`; `get(1, c2)` then clears the retention of key 0, whose value dies
and whose entry disappears; and `get(0, c3)` constructs anew (a third,
distinct instance, id 2). -/
theorem c5_bounded_retention_drop_all :
    (∀ (s : St Nat) (v : Option Nat) (N : Nat), s.policy = Policy.keepSet N →
      N ≤ s.retained.length → ¬ v ∈ s.retained → (retInsert s v).1.retained = [v]) ∧
    (s5a.result = some (some 0) ∧ s5a.created = true ∧
      s5c.result = some (some 0) ∧ s5c.created = false ∧
      s5e.result = some (some 1) ∧ s5e.created = true ∧
      lookup s5e.st.cache 0 = none ∧
      (objAt s5e.st.objs 0).map (fun o => o.alive) = some false ∧
      s5g.result = some (some 2) ∧ s5g.created = true) := by
  constructor
  · intro s v N hpol hle _hv
    rw [retInsert_eq_of_keepSet hpol]
    simp only [ksaInsert]
    rw [if_pos hle, clearRet_retained, if_neg (List.not_mem_nil v)]
    cases v with
    | none => rfl
    | some i => rfl
  · decide

/-- Claim C5 witness: the universal clear-at-capacity statement applied at
the concrete state `w10`. -/
theorem c5_witness : (retInsert w10 (some 3)).1.retained = [some 3] :=
  c5_bounded_retention_drop_all.1 w10 (some 3) 1 rfl (by decide) (by decide)

/-! Lemmas for the miss-insert state and the hit lock. -/

theorem lockWeak_some {objs : List (Obj K)} {i j : Nat}
    (h : lockWeak objs i = some j) :
    j = i ∧ ∃ o, objAt objs i = some o ∧ o.alive = true := by
  unfold lockWeak at h
  obtain ⟨r, hr⟩ : ∃ r, objAt objs i = r := ⟨_, rfl⟩
  cases r with
  | none => rw [hr] at h; cases h
  | some o =>
    rw [hr] at h
    have h2 : (if o.alive = true then some i else none) = some j := h
    by_cases hal : o.alive = true
    · rw [if_pos hal] at h2
      injection h2 with he
      exact ⟨he.symm, o, hr, hal⟩
    · rw [if_neg hal] at h2
      cases h2

theorem objAt_append_single {l : List α} {x : α} {j : Nat} {o : α}
    (h : objAt (l ++ [x]) j = some o) : objAt l j = some o ∨ (j = l.length ∧ o = x) := by
  induction l generalizing j with
  | nil =>
    cases j with
    | zero =>
      injection h with he
      exact Or.inr ⟨rfl, he.symm⟩
    | succ n => cases (objAt_ge (l := ([] : List α)) (Nat.zero_le n)) ▸ h
  | cons y rest ih =>
    cases j with
    | zero => exact Or.inl h
    | succ n =>
      rcases ih h with h1 | ⟨h2, h3⟩
      · exact Or.inl h1
      · exact Or.inr ⟨by rw [h2]; rfl, h3⟩

theorem insState_aliveOk (s : St K) (k : K) (hA : AliveOk s.objs) :
    AliveOk (insState s k).objs := by
  intro j o2 h2
  rcases objAt_append_single h2 with h1 | ⟨hj, rfl⟩
  · exact hA j o2 h1
  · exact ⟨fun _ => Nat.one_pos, fun _ => rfl⟩

theorem insState_cacheOk (s : St K) (k : K) (hl : lookup s.cache k = none)
    (hC : CacheOk s.cache s.objs) :
    CacheOk (insState s k).cache (insState s k).objs := by
  obtain ⟨hN, hE, hL⟩ := hC
  have hknotin : k ∉ s.cache.map Prod.fst := lookup_none_iff.mp hl
  have hins : mapInsert s.cache k s.objs.length = s.cache ++ [(k, s.objs.length)] :=
    mapInsert_of_none hl
  refine ⟨?_, ?_, ?_⟩
  · show ((mapInsert s.cache k s.objs.length).map Prod.fst).Nodup
    rw [hins, List.map_append]
    rw [List.nodup_append]
    refine ⟨hN, List.nodup_singleton k, ?_⟩
    intro a ha hb
    have hb2 : a ∈ [k] := hb
    rw [List.mem_singleton] at hb2
    subst hb2
    exact hknotin ha
  · intro p hp
    show ∃ o, objAt (s.objs ++ [⟨k, 1, true, true⟩]) p.2 = some o ∧ o.key = p.1 ∧
      o.alive = true ∧ o.attached = true
    have hp2 : p ∈ mapInsert s.cache k s.objs.length := hp
    rw [hins] at hp2
    rcases List.mem_append.mp hp2 with h1 | h2
    · obtain ⟨o0, ho0, hk, hal, hat⟩ := hE p h1
      exact ⟨o0, objAt_append_left ho0, hk, hal, hat⟩
    · rw [List.mem_singleton] at h2
      subst h2
      exact ⟨⟨k, 1, true, true⟩, objAt_append_len, rfl, rfl, rfl⟩
  · intro j o2 h2 hal2
    rcases objAt_append_single h2 with h1 | ⟨hj, rfl⟩
    · obtain ⟨hat, hmem2⟩ := hL j o2 h1 hal2
      refine ⟨hat, ?_⟩
      show (o2.key, j) ∈ mapInsert s.cache k s.objs.length
      rw [hins]
      exact List.mem_append.mpr (Or.inl hmem2)
    · refine ⟨rfl, ?_⟩
      show ((⟨k, 1, true, true⟩ : Obj K).key, j) ∈ mapInsert s.cache k s.objs.length
      rw [hins, hj]
      exact List.mem_append.mpr (Or.inr (List.mem_singleton.mpr rfl))

/-- Claim C8: a cache entry is removed exactly when the Finalizer for its
value runs — under both mutating operations (`get` with any key and any
constructor outcome, and a strong-reference drop), an existing entry is
still present afterwards if and only if its object is still alive; so
removal happens exactly at the reference-count drop that kills the value,
never earlier and never later, and `get` itself never removes an entry
except through the finalizers it triggers. -/
theorem c8_entry_removal_iff_death (s : St K) (hwf : wfB s = true) (k2 : K) (i2 : Nat)
    (hmem : (k2, i2) ∈ s.cache) :
    (∀ (k : K) (fail : Bool), ((k2, i2) ∈ (get s k fail).st.cache ↔
      ∃ o2, objAt (get s k fail).st.objs i2 = some o2 ∧ o2.alive = true)) ∧
    (∀ j : Nat, ((k2, i2) ∈ (dropStrong s j).1.cache ↔
      ∃ o2, objAt (dropStrong s j).1.objs i2 = some o2 ∧ o2.alive = true)) := by
  have hC := wf_cacheOk s hwf
  have hA := wf_aliveOk s hwf
  constructor
  · intro k fail
    obtain ⟨r, hl⟩ : ∃ r, lookup s.cache k = r := ⟨_, rfl⟩
    cases r with
    | some i =>
      rw [get_eq_hit hl fail]
      obtain ⟨r2, hw⟩ : ∃ r2, lockWeak s.objs i = r2 := ⟨_, rfl⟩
      cases r2 with
      | some j =>
        obtain ⟨hji, o, ho, hal⟩ := lockWeak_some hw
        rw [hji] at hw
        rw [getHit_alive hw]
        have hC1 : CacheOk (bumpAt s i).cache (bumpAt s i).objs := bump_cacheOk hC
        have hA1 : AliveOk (bumpAt s i).objs := bump_aliveOk ho hal hA
        exact retInsert_entry_iff (bumpAt s i) (some i) hC1 hA1 hmem
      | none =>
        rw [getHit_dead hw]
        exact retInsert_entry_iff s none hC hA hmem
    | none =>
      rw [get_eq_miss hl fail]
      cases fail with
      | true =>
        rw [getMiss_fail]
        obtain ⟨o0, h0, _, hal0, _⟩ := hC.2.1 (k2, i2) hmem
        exact ⟨fun _ => ⟨o0, h0, hal0⟩, fun _ => hmem⟩
      | false =>
        rw [getMiss_ok]
        have hC1 : CacheOk (insState s k).cache (insState s k).objs :=
          insState_cacheOk s k hl hC
        have hA1 : AliveOk (insState s k).objs := insState_aliveOk s k hA
        have hmem1 : (k2, i2) ∈ (insState s k).cache := by
          show (k2, i2) ∈ mapInsert s.cache k s.objs.length
          rw [mapInsert_of_none hl]
          exact List.mem_append.mpr (Or.inl hmem)
        exact retInsert_entry_iff (insState s k) (some s.objs.length) hC1 hA1 hmem1
  · intro j
    exact dropStrong_entry_iff s j hC hA hmem

/-- Claim C8 witness: the biconditional at the concrete state `w1` for both
operations. -/
theorem c8_witness :
    ((5, 0) ∈ (get w1 9 false).st.cache ↔
      ∃ o2, objAt (get w1 9 false).st.objs 0 = some o2 ∧ o2.alive = true) ∧
    ((5, 0) ∈ (dropStrong w1 0).1.cache ↔
      ∃ o2, objAt (dropStrong w1 0).1.objs 0 = some o2 ∧ o2.alive = true) := by
  have h := c8_entry_removal_iff_death w1 (by decide) 5 0 (by decide)
  exact ⟨h.1 9 false, h.2 0⟩

/-! Lemmas about the destructor. -/

theorem modifyObj_some {l : List (Obj K)} {i j : Nat} {f : Obj K → Obj K} {o : Obj K}
    (h : objAt l j = some o) : ∃ o2, objAt (modifyObj l i f) j = some o2 := by
  by_cases hj : i = j
  · subst hj
    exact ⟨f o, modifyObj_at_self h⟩
  · rw [modifyObj_at_ne hj]
    exact ⟨o, h⟩

theorem orphanAll_trace (objs : List (Obj K)) (l : List (K × Nat)) :
    (orphanAll objs l).2 = l.map (fun p => Event.orphanEvt p.2) := by
  induction l generalizing objs with
  | nil => rfl
  | cons q rest ih =>
    show Event.orphanEvt q.2 ::
      (orphanAll (modifyObj objs q.2 (fun a => { a with attached := false })) rest).2 = _
    rw [ih, List.map_cons]

theorem orphanAll_att_persist {objs : List (Obj K)} {l : List (K × Nat)} {j : Nat}
    {o : Obj K} (h : objAt objs j = some o) (hatt : o.attached = false) :
    ∃ o2, objAt (orphanAll objs l).1 j = some o2 ∧ o2.attached = false := by
  induction l generalizing objs o with
  | nil => exact ⟨o, h, hatt⟩
  | cons q rest ih =>
    by_cases hj : q.2 = j
    · subst hj
      exact ih (modifyObj_at_self h) rfl
    · exact ih (by rw [modifyObj_at_ne hj]; exact h) hatt

theorem orphanAll_attached_false {objs : List (Obj K)} {l : List (K × Nat)} {p : K × Nat}
    (hp : p ∈ l) {o0 : Obj K} (h0 : objAt objs p.2 = some o0) :
    ∃ o2, objAt (orphanAll objs l).1 p.2 = some o2 ∧ o2.attached = false := by
  induction l generalizing objs o0 with
  | nil => cases hp
  | cons q rest ih =>
    rcases List.mem_cons.mp hp with rfl | hp2
    · show ∃ o2, objAt (orphanAll (modifyObj objs p.2
          (fun a => { a with attached := false })) rest).1 p.2 = some o2 ∧
          o2.attached = false
      exact orphanAll_att_persist (modifyObj_at_self h0) rfl
    · obtain ⟨o1, h1⟩ :=
        modifyObj_some (i := q.2) (f := fun a => { a with attached := false }) h0
      show ∃ o2, objAt (orphanAll (modifyObj objs q.2
          (fun a => { a with attached := false })) rest).1 p.2 = some o2 ∧
          o2.attached = false
      exact ih hp2 h1

theorem clearPolicy_cacheOk (s : St K) (hC : CacheOk s.cache s.objs)
    (hA : AliveOk s.objs) :
    CacheOk (clearPolicy s).1.cache (clearPolicy s).1.objs := by
  obtain ⟨P, hpol⟩ : ∃ P, s.policy = P := ⟨_, rfl⟩
  cases P with
  | keepNothing =>
    unfold clearPolicy
    rw [hpol]
    exact hC
  | keepSet N =>
    unfold clearPolicy
    rw [hpol]
    exact dropAll_cacheOk s s.retained hC hA

theorem clearPolicy_cache_sub (s : St K) {p : K × Nat}
    (hp : p ∈ (clearPolicy s).1.cache) : p ∈ s.cache := by
  obtain ⟨P, hpol⟩ : ∃ P, s.policy = P := ⟨_, rfl⟩
  cases P with
  | keepNothing =>
    unfold clearPolicy at hp
    rw [hpol] at hp
    exact hp
  | keepSet N =>
    unfold clearPolicy at hp
    rw [hpol] at hp
    exact dropAll_cache_sub s s.retained hp

theorem clearPolicy_no_orphan (s : St K) (i : Nat) :
    Event.orphanEvt i ∉ (clearPolicy s).2 := by
  obtain ⟨P, hpol⟩ : ∃ P, s.policy = P := ⟨_, rfl⟩
  cases P with
  | keepNothing =>
    unfold clearPolicy
    rw [hpol]
    exact List.not_mem_nil _
  | keepSet N =>
    unfold clearPolicy
    rw [hpol]
    intro hin
    have hin2 : Event.orphanEvt i ∈ (dropAll s s.retained).2 ++ [Event.retainClear] := hin
    rcases List.mem_append.mp hin2 with h1 | h2
    · rcases dropAll_trace_shape s s.retained h1 with ⟨k0, h⟩ | ⟨j, h⟩ <;> cases h
    · rcases List.mem_cons.mp h2 with h | h
      · cases h
      · cases h

theorem idsNodup_of_cacheOk {cache : List (K × Nat)} {objs : List (Obj K)}
    (hC : CacheOk cache objs) : (cache.map Prod.snd).Nodup := by
  obtain ⟨hN, hE, _⟩ := hC
  refine List.Nodup.map_on ?_ (List.Nodup.of_map Prod.fst hN)
  intro x hx y hy hxy
  obtain ⟨ox, hox, hkx, _, _⟩ := hE x hx
  obtain ⟨oy, hoy, hky, _, _⟩ := hE y hy
  rw [hxy] at hox
  rw [hoy] at hox
  injection hox with he
  obtain ⟨x1, x2⟩ := x
  obtain ⟨y1, y2⟩ := y
  have hxy2 : x2 = y2 := hxy
  subst hxy2
  have hk1 : ox.key = x1 := hkx
  have hk2 : oy.key = y1 := hky
  have h12 : x1 = y1 := by rw [← hk1, ← hk2, he]
  rw [h12]

theorem orphanEvt_injective :
    Function.Injective (fun i => (Event.orphanEvt i : Event K)) := by
  intro a b h
  injection h

/-- Claim C7: the Factory destructor first clears the Retention Policy
(whose trace comes first and contains no orphan event; the releases may
run finalizers and shrink the map), and only then, for every entry still
remaining, orphans that entry's Finalizer — its back-reference becomes
null — exactly once: the destructor trace contains exactly one orphan
event per remaining entry and none for any other id. -/
theorem c7_destructor_orphans (s : St K) (hwf : wfB s = true) :
    (destroyFactory s).trace
        = (clearPolicy s).2 ++
          (destroyFactory s).remaining.map (fun p => Event.orphanEvt p.2) ∧
    (∀ i, Event.orphanEvt i ∉ (clearPolicy s).2) ∧
    (∀ p ∈ (destroyFactory s).remaining, p ∈ s.cache) ∧
    (∀ p ∈ (destroyFactory s).remaining,
      ∃ o2, objAt (destroyFactory s).objs p.2 = some o2 ∧ o2.attached = false) ∧
    (∀ p ∈ (destroyFactory s).remaining,
      (destroyFactory s).trace.count (Event.orphanEvt p.2) = 1) ∧
    (∀ i, (∀ p ∈ (destroyFactory s).remaining, ¬ p.2 = i) →
      (destroyFactory s).trace.count (Event.orphanEvt i) = 0) := by
  have hC := wf_cacheOk s hwf
  have hA := wf_aliveOk s hwf
  have hC1 : CacheOk (clearPolicy s).1.cache (clearPolicy s).1.objs :=
    clearPolicy_cacheOk s hC hA
  have htr : (destroyFactory s).trace
      = (clearPolicy s).2 ++
        (clearPolicy s).1.cache.map (fun p => Event.orphanEvt p.2) := by
    show (clearPolicy s).2 ++ (orphanAll (clearPolicy s).1.objs (clearPolicy s).1.cache).2
      = _
    rw [orphanAll_trace]
  have hids : ((clearPolicy s).1.cache.map Prod.snd).Nodup := idsNodup_of_cacheOk hC1
  have hmapeq : (clearPolicy s).1.cache.map (fun p => Event.orphanEvt p.2)
      = ((clearPolicy s).1.cache.map Prod.snd).map
          (fun i => (Event.orphanEvt i : Event K)) := by
    rw [List.map_map]
    rfl
  refine ⟨htr, fun i => clearPolicy_no_orphan s i, ?_, ?_, ?_, ?_⟩
  · intro p hp
    exact clearPolicy_cache_sub s hp
  · intro p hp
    obtain ⟨o0, h0, _, _, _⟩ := hC1.2.1 p hp
    exact orphanAll_attached_false hp h0
  · intro p hp
    rw [htr, List.count_append]
    rw [List.count_eq_zero.mpr (clearPolicy_no_orphan s p.2)]
    rw [hmapeq, List.count_map_of_injective _ _ orphanEvt_injective]
    rw [List.count_eq_one_of_mem hids (List.mem_map_of_mem Prod.snd hp)]
  · intro i hni
    rw [htr, List.count_append]
    rw [List.count_eq_zero.mpr (clearPolicy_no_orphan s i)]
    rw [List.count_eq_zero.mpr ?_]
    intro hin
    obtain ⟨p, hp, hpe⟩ := List.mem_map.mp hin
    exact hni p hp (by injection hpe)

/-- Claim C7 witness: destroying the factory `w1` orphans the single
remaining entry exactly once. -/
theorem c7_witness :
    (destroyFactory w1).trace
        = (clearPolicy w1).2 ++
          (destroyFactory w1).remaining.map (fun p => Event.orphanEvt p.2) ∧
    (∀ i, Event.orphanEvt i ∉ (clearPolicy w1).2) ∧
    (∀ p ∈ (destroyFactory w1).remaining, p ∈ w1.cache) ∧
    (∀ p ∈ (destroyFactory w1).remaining,
      ∃ o2, objAt (destroyFactory w1).objs p.2 = some o2 ∧ o2.attached = false) ∧
    (∀ p ∈ (destroyFactory w1).remaining,
      (destroyFactory w1).trace.count (Event.orphanEvt p.2) = 1) ∧
    (∀ i, (∀ p ∈ (destroyFactory w1).remaining, ¬ p.2 = i) →
      (destroyFactory w1).trace.count (Event.orphanEvt i) = 0) :=
  c7_destructor_orphans w1 (by decide)

end UniqueFactory